import Mathlib

/-!
Verification of the shashlik-tiles-gen extract pipeline.

Source files are shallowly embedded into Lean: `f64` coordinates are modelled
as exact rationals (`ℚ`), Rust vectors as `List`/`Array`, fallible or panicking
code as `Except`/`Option`.  Each definition mirrors the Rust item of the same
name; external crates (geo, petgraph, rstar) are modelled from their documented
behaviour where noted.
-/

namespace Shashlik

/-- geo `Coord`: a pair of `f64`s, modelled with exact rationals. -/
structure Coord where
  x : ℚ
  y : ℚ
deriving DecidableEq, Repr, Inhabited

/-- geo `Rect`: an axis-aligned rectangle given by its min and max corners
(geo stores them normalized; we keep the two accessor fields directly). -/
structure Rect where
  min : Coord
  max : Coord
deriving DecidableEq, Repr

/-- `get_side` from `src/osm/src/tiles/sutherland_hodgman.rs` (lines 30-43):
outcode of a point against a rectangle, with strict `<`/`>` tests so that
boundary points count as inside (code 0). -/
def get_side (coord : Coord) (rect : Rect) : ℕ :=
  let code := 0
  let code := if coord.x < rect.min.x then code ||| 1
    else if coord.x > rect.max.x then code ||| 2
    else code
  let code := if coord.y < rect.min.y then code ||| 4
    else if coord.y > rect.max.y then code ||| 8
    else code
  code

/-- `intersect_edge` from `sutherland_hodgman.rs` (lines 2-28): intersection of
segment `a`-`b` with the rectangle edge selected by the bit `side`.  (Rational
division by zero yields 0 where the f64 code would yield a non-finite value;
the theorems below never call this function on degenerate segments.) -/
def intersect_edge (a b : Coord) (side : ℕ) (rect : Rect) : Coord :=
  if side &&& 8 ≠ 0 then
    { x := a.x + (b.x - a.x) * (rect.max.y - a.y) / (b.y - a.y), y := rect.max.y }
  else if side &&& 4 ≠ 0 then
    { x := a.x + (b.x - a.x) * (rect.min.y - a.y) / (b.y - a.y), y := rect.min.y }
  else if side &&& 2 ≠ 0 then
    { x := rect.max.x, y := a.y + (b.y - a.y) * (rect.max.x - a.x) / (b.x - a.x) }
  else if side &&& 1 ≠ 0 then
    { x := rect.min.x, y := a.y + (b.y - a.y) * (rect.min.x - a.x) / (b.x - a.x) }
  else
    a

/-- The body of the `for p in points` loop of `sutherland_hodgman_clip` for one
clip edge: emit the crossing point when the inside/outside bit changes, then
the vertex itself when it is inside. -/
def shPassFold (rect : Rect) (edge : ℕ) (points : List Coord) (prev : Coord) : List Coord :=
  match points with
  | [] => []
  | p :: rest =>
      let inside := (get_side p rect) &&& edge == 0
      let prevInside := (get_side prev rect) &&& edge == 0
      let out := (if inside ≠ prevInside then [intersect_edge prev p edge rect] else []) ++
        (if inside then [p] else [])
      out ++ shPassFold rect edge rest p

/-- One iteration of the `while edge <= 8` loop of `sutherland_hodgman_clip`:
clip the ring against a single rectangle edge, starting from the last point. -/
def shPass (rect : Rect) (edge : ℕ) (points : List Coord) : List Coord :=
  match points.getLast? with
  | none => []
  | some last => shPassFold rect edge points last

/-- `sutherland_hodgman_clip` from `sutherland_hodgman.rs` (lines 45-77):
clip against the four edges 1, 2, 4, 8 in order, stopping early when the point
list becomes empty; return `some` ring only when at least two points remain. -/
def sutherland_hodgman_clip (subject_polygon : List Coord) (rect : Rect) :
    Option (List Coord) :=
  let points := subject_polygon
  let points := shPass rect 1 points
  let points := if points.isEmpty then points else shPass rect 2 points
  let points := if points.isEmpty then points else shPass rect 4 points
  let points := if points.isEmpty then points else shPass rect 8 points
  if points.length ≥ 2 then some points else none

/-- A coordinate lies (weakly) inside the rectangle: exactly the condition
under which the strict `<`/`>` tests of `get_side` yield outcode 0. -/
def inRect (rect : Rect) (c : Coord) : Prop :=
  rect.min.x ≤ c.x ∧ c.x ≤ rect.max.x ∧ rect.min.y ≤ c.y ∧ c.y ≤ rect.max.y

theorem get_side_eq_zero_of_inRect {rect : Rect} {c : Coord} (h : inRect rect c) :
    get_side c rect = 0 := by
  obtain ⟨h1, h2, h3, h4⟩ := h
  simp only [get_side]
  split_ifs <;> first | rfl | (exfalso; linarith)

theorem shPassFold_of_all_inside {rect : Rect} {edge : ℕ} {points : List Coord}
    (hall : ∀ c ∈ points, get_side c rect = 0) (prev : Coord)
    (hprev : get_side prev rect = 0) :
    shPassFold rect edge points prev = points := by
  induction points generalizing prev with
  | nil => rfl
  | cons p rest ih =>
      have hp : get_side p rect = 0 := hall p (by simp)
      have hrest : ∀ c ∈ rest, get_side c rect = 0 := fun c hc => hall c (by simp [hc])
      simp only [shPassFold, hp, hprev]
      simp [ih hrest p hp]

theorem shPass_of_all_inside {rect : Rect} {edge : ℕ} {points : List Coord}
    (hne : points ≠ []) (hall : ∀ c ∈ points, get_side c rect = 0) :
    shPass rect edge points = points := by
  have hlast : points.getLast? = some (points.getLast hne) :=
    List.getLast?_eq_getLast points hne
  have hlastmem : points.getLast hne ∈ points := List.getLast_mem hne
  simp only [shPass, hlast]
  exact shPassFold_of_all_inside hall _ (hall _ hlastmem)

/-- **C1.** Sutherland–Hodgman clipping is stable: if every vertex of a ring of
at least three vertices lies within the clip rectangle (boundary points
counting as inside per the strict `<`/`>` outcode tests), then
`sutherland_hodgman_clip` returns `some` of exactly the input ring — same
vertices, same order, same count. -/
theorem sutherland_hodgman_clip_stable (ring : List Coord) (rect : Rect)
    (hlen : 3 ≤ ring.length) (hin : ∀ c ∈ ring, inRect rect c) :
    sutherland_hodgman_clip ring rect = some ring := by
  have hne : ring ≠ [] := by
    intro h; rw [h] at hlen; simp at hlen
  have hall : ∀ c ∈ ring, get_side c rect = 0 :=
    fun c hc => get_side_eq_zero_of_inRect (hin c hc)
  have hpass : ∀ e, shPass rect e ring = ring := fun e => shPass_of_all_inside hne hall
  have hnotempty : ring.isEmpty = false := by
    simpa [List.isEmpty_iff] using hne
  simp only [sutherland_hodgman_clip, hpass, hnotempty, if_neg Bool.false_ne_true]
  rw [if_pos (by omega)]

/-- Witness for C1: a concrete triangle inside a concrete rectangle is returned
unchanged. -/
theorem sutherland_hodgman_clip_stable_witness :
    sutherland_hodgman_clip
      [⟨0, 0⟩, ⟨1, 0⟩, ⟨0, 1⟩] ⟨⟨-2, -2⟩, ⟨2, 2⟩⟩ =
      some [⟨0, 0⟩, ⟨1, 0⟩, ⟨0, 1⟩] := by
  apply sutherland_hodgman_clip_stable
  · decide
  · intro c hc
    fin_cases hc <;> exact ⟨by norm_num, by norm_num, by norm_num, by norm_num⟩

/-! ## Map data model (`src/osm/src/map/mod.rs`) -/

/-- `ZOOM_LEVELS` from `map/mod.rs` line 11. -/
def ZOOM_LEVELS : ℕ := 18

/-- `HighwayKind` from `map/mod.rs` (lines 262-278), in declaration order. -/
inductive HighwayKind where
  | Motorway | Trunk | Primary | Secondary | Tertiary | Unclassified | Residential
  | MotorwayLink | TrunkLink | PrimaryLink | SecondaryLink | TertiaryLink | Service | Footway
deriving DecidableEq, Repr, Fintype

/-- `RailwayKind` from `map/mod.rs`. -/
inductive RailwayKind where
  | Rail
deriving DecidableEq, Repr, Fintype

/-- `LineKind` from `map/mod.rs`. -/
inductive LineKind where
  | Highway (kind : HighwayKind)
  | Railway (kind : RailwayKind)
deriving DecidableEq, Repr, Fintype

/-- `HighwayKind::get_layer` (render rank) from `map/mod.rs` lines 336-355. -/
def HighwayKind.get_layer : HighwayKind → ℕ
  | .Motorway => 16
  | .Trunk => 15
  | .Primary => 14
  | .Secondary => 13
  | .Tertiary => 12
  | .MotorwayLink => 11
  | .TrunkLink => 10
  | .PrimaryLink => 9
  | .SecondaryLink => 8
  | .TertiaryLink => 7
  | .Residential => 6
  | .Service => 5
  | .Unclassified => 4
  | .Footway => 3

/-- `RailwayKind::get_layer` from `map/mod.rs` lines 367-372. -/
def RailwayKind.get_layer : RailwayKind → ℕ
  | .Rail => 17

/-- `LineKind::get_layer` from `map/mod.rs` lines 381-386. -/
def LineKind.get_layer : LineKind → ℕ
  | .Highway kind => kind.get_layer
  | .Railway kind => kind.get_layer

/-- `LayerKind` from `map/mod.rs` (lines 281-285), in declaration order
(`Tunnel`, `None`, `Bridge`). -/
inductive LayerKind where
  | Tunnel | None | Bridge
deriving DecidableEq, Repr, Fintype

/-- `WayInfo` from `map/mod.rs`: `name_en` is excluded from equality, hashing
and ordering by the `derivative` attributes and the manual `Ord`. -/
structure WayInfo where
  line_kind : LineKind
  layer : ℤ
  layer_kind : LayerKind
  name_en : Option String
deriving DecidableEq, Repr

/-- `NatureKind` from `map/mod.rs` (declaration order `Ground, Park, Forest,
Water`; `Ord` is derived). -/
inductive NatureKind where
  | Ground | Park | Forest | Water
deriving DecidableEq, Repr, Fintype

/-- `PopAreaInfo` from `map/mod.rs` (`level: i32`, `population: u32`). -/
structure PopAreaInfo where
  level : ℤ
  population : ℕ
deriving DecidableEq, Repr

/-- `MapPointObjectKind` from `map/mod.rs` (declaration order; `Ord` derived). -/
inductive MapPointObjectKind where
  | PopArea (info : PopAreaInfo)
  | TrafficLight | Toilet | Parking | Text
deriving DecidableEq, Repr

/-- `MapPointInfo` from `map/mod.rs`; its manual `Ord` compares `kind` only. -/
structure MapPointInfo where
  text : String
  kind : MapPointObjectKind
deriving DecidableEq, Repr

/-- `MapGeomObjectKind` from `map/mod.rs` (lines 128-135), declaration order
`Nature, Building, Way, Route, AdminLine, Poi`; `Ord` is derived, so variants
compare by declaration order and equal variants by payload `Ord`. -/
inductive MapGeomObjectKind where
  | Nature (kind : NatureKind)
  | Building
  | Way (info : WayInfo)
  | Route
  | AdminLine
  | Poi (info : MapPointInfo)
deriving DecidableEq, Repr

/-- `MapGeomObject` from `map/mod.rs`; its manual `Ord` compares `kind` only
(the id is ignored). -/
structure MapGeomObject where
  id : ℤ
  kind : MapGeomObjectKind
deriving DecidableEq, Repr

/-- geo `Polygon`: an exterior ring and a list of interior rings. -/
structure Polygon where
  exterior : List Coord
  interiors : List (List Coord)
deriving DecidableEq, Repr

/-- `MapGeometry` from `map/mod.rs` (lines 38-43). -/
inductive MapGeometry where
  | Line (line : List Coord)
  | Poly (poly : Polygon)
  | Coord (coord : Shashlik.Coord)
deriving DecidableEq, Repr

/-! ## C2: the per-zoom way inclusion filter (`src/osm_tool/src/way_store.rs`) -/

/-- The inclusion decision of `WayStore::process_without_preserve_topology`
(`way_store.rs` lines 85-112): the `match` on `map_geom_obj.kind` computing
`included` for a given zoom level. -/
def included_without_preserve_topology (zoom_level : ℕ) (kind : MapGeomObjectKind) : Bool :=
  match kind with
  | .Way info =>
      if zoom_level = 0 then true
      else if zoom_level ≤ 1 then info.line_kind ≠ LineKind.Highway .Footway
      else if info.line_kind = LineKind.Railway .Rail then zoom_level < 4
      else if zoom_level ≥ 13 then false
      else
        let line_kind_layer := info.line_kind.get_layer
        (zoom_level ≤ 4 ∧ line_kind_layer ≥ 12) ∨ (zoom_level ≤ 5 ∧ line_kind_layer ≥ 13)
          ∨ (zoom_level ≤ 6 ∧ line_kind_layer ≥ 14) ∨ (zoom_level ≤ 8 ∧ line_kind_layer ≥ 15)
          ∨ line_kind_layer ≥ 16
  | _ => false

/-- The inclusion decision of `WayStore::process_with_preserve_topology`
(`way_store.rs` lines 164-220): at zoom 0 every item passes the filter; at
higher zooms the `match` on the kind decides (disregarding the `seen`
short-circuit, which only re-applies an exclusion decided at a lower zoom). -/
def included_with_preserve_topology (zoom_level : ℕ) (kind : MapGeomObjectKind) : Bool :=
  if zoom_level = 0 then true
  else
    match kind with
    | .Way info =>
        if zoom_level ≤ 1 then info.line_kind ≠ LineKind.Highway .Footway
        else if info.line_kind = LineKind.Railway .Rail then zoom_level < 4
        else if zoom_level ≥ 13 then false
        else
          let line_kind_layer := info.line_kind.get_layer
          (zoom_level ≤ 4 ∧ line_kind_layer ≥ 12) ∨ (zoom_level ≤ 5 ∧ line_kind_layer ≥ 13)
            ∨ (zoom_level ≤ 6 ∧ line_kind_layer ≥ 14) ∨ (zoom_level ≤ 8 ∧ line_kind_layer ≥ 15)
            ∨ line_kind_layer ≥ 16
    | _ => false

/-- The inclusion predicate exactly as the claim states it. -/
def claimWayIncluded (z : ℕ) (lk : LineKind) : Prop :=
  z = 0 ∨
  (z = 1 ∧ lk ≠ LineKind.Highway .Footway) ∨
  (lk = LineKind.Railway .Rail ∧ 2 ≤ z ∧ z < 4) ∨
  (lk ≠ LineKind.Railway .Rail ∧ z < 13 ∧
    ((z ≤ 4 ∧ 12 ≤ lk.get_layer) ∨ (z ≤ 5 ∧ 13 ≤ lk.get_layer) ∨
      (z ≤ 6 ∧ 14 ≤ lk.get_layer) ∨ (z ≤ 8 ∧ 15 ≤ lk.get_layer) ∨ 16 ≤ lk.get_layer))

instance (z : ℕ) (lk : LineKind) : Decidable (claimWayIncluded z lk) := by
  unfold claimWayIncluded; exact inferInstance

theorem zoom_filter_aux :
    ∀ z : Fin 18, ∀ lk : LineKind,
      (included_without_preserve_topology z.val
          (.Way ⟨lk, 0, .None, Option.none⟩) = true ↔ claimWayIncluded z.val lk) ∧
      (included_with_preserve_topology z.val
          (.Way ⟨lk, 0, .None, Option.none⟩) = true ↔ claimWayIncluded z.val lk) := by
  decide

/-- **C2.** For every way-kind object and every zoom `z < 18`, both topology
modes of `WayStore` include the way exactly when the claim's predicate holds
(and the decision depends only on the line kind); objects whose kind is not
`Way` are never included at zoom levels above 0. -/
theorem way_zoom_filter_matches_claim (z : ℕ) (hz : z < 18) :
    (∀ info : WayInfo,
      (included_without_preserve_topology z (.Way info) = true ↔
        claimWayIncluded z info.line_kind) ∧
      (included_with_preserve_topology z (.Way info) = true ↔
        claimWayIncluded z info.line_kind)) ∧
    (∀ kind : MapGeomObjectKind, (∀ info, kind ≠ .Way info) → 1 ≤ z →
      included_without_preserve_topology z kind = false ∧
      included_with_preserve_topology z kind = false) := by
  constructor
  · intro info
    exact zoom_filter_aux ⟨z, hz⟩ info.line_kind
  · intro kind hkind hz1
    have hz0 : ¬ z = 0 := by omega
    cases kind with
    | Way info => exact absurd rfl (hkind info)
    | Nature k => simp [included_without_preserve_topology, included_with_preserve_topology, hz0]
    | Building => simp [included_without_preserve_topology, included_with_preserve_topology, hz0]
    | Route => simp [included_without_preserve_topology, included_with_preserve_topology, hz0]
    | AdminLine => simp [included_without_preserve_topology, included_with_preserve_topology, hz0]
    | Poi p => simp [included_without_preserve_topology, included_with_preserve_topology, hz0]

/-- Witness for C2 at zoom 3 with a rail way. -/
theorem way_zoom_filter_matches_claim_witness :
    3 < 18 ∧
      (included_without_preserve_topology 3
          (.Way ⟨LineKind.Railway .Rail, 0, .None, Option.none⟩) = true ↔
        claimWayIncluded 3 (LineKind.Railway .Rail)) :=
  ⟨by omega,
    ((way_zoom_filter_matches_claim 3 (by omega)).1
      ⟨LineKind.Railway .Rail, 0, .None, Option.none⟩).1⟩

/-! ## C5: painter-order sorting before persistence
(`TileWriter::perform_queries`, `src/osm/src/tile_writer/tile_writer.rs` line
250, and the `Ord` implementations of `src/osm/src/map/mod.rs`).

Rust's derived `Ord` on a fieldless enum orders by variant declaration index;
on an enum with payloads it orders by variant index first, then by the
payload's `Ord`.  `Ordering.then` is exactly the Rust `match self.cmp(..) {
Equal => next, v => v }` pattern used by the manual impls. -/

/-- Declaration index of `NatureKind` (derived `Ord`). -/
def NatureKind.idx : NatureKind → ℕ
  | .Ground => 0 | .Park => 1 | .Forest => 2 | .Water => 3

/-- Derived `Ord` of `NatureKind`. -/
def NatureKind.cmp (a b : NatureKind) : Ordering := compare a.idx b.idx

/-- Manual `Ord` of `PopAreaInfo` (`map/mod.rs` lines 249-256): level, then
population. -/
def PopAreaInfo.cmp (a b : PopAreaInfo) : Ordering :=
  (compare a.level b.level).then (compare a.population b.population)

/-- Declaration index of `MapPointObjectKind` (derived `Ord`). -/
def MapPointObjectKind.idx : MapPointObjectKind → ℕ
  | .PopArea _ => 0 | .TrafficLight => 1 | .Toilet => 2 | .Parking => 3 | .Text => 4

/-- Derived `Ord` of `MapPointObjectKind`: variant index, payload `Ord` for
two `PopArea`s. -/
def MapPointObjectKind.cmp (a b : MapPointObjectKind) : Ordering :=
  match a, b with
  | .PopArea i, .PopArea j => i.cmp j
  | _, _ => compare a.idx b.idx

/-- Manual `Ord` of `MapPointInfo` (`map/mod.rs` lines 214-218): compares the
kind only; the text is ignored. -/
def MapPointInfo.cmp (a b : MapPointInfo) : Ordering := a.kind.cmp b.kind

/-- Declaration index of `LayerKind` (derived `Ord`): `Tunnel, None, Bridge`. -/
def LayerKind.idx : LayerKind → ℕ
  | .Tunnel => 0 | .None => 1 | .Bridge => 2

/-- Derived `Ord` of `LayerKind`. -/
def LayerKind.cmp (a b : LayerKind) : Ordering := compare a.idx b.idx

/-- Manual `Ord` of `WayInfo` (`map/mod.rs` lines 226-241): `layer_kind`, then
`layer`, then `line_kind.get_layer()`; `name_en` is ignored. -/
def WayInfo.cmp (a b : WayInfo) : Ordering :=
  (a.layer_kind.cmp b.layer_kind).then
    ((compare a.layer b.layer).then (compare a.line_kind.get_layer b.line_kind.get_layer))

/-- Declaration index of `MapGeomObjectKind` (derived `Ord`). -/
def MapGeomObjectKind.idx : MapGeomObjectKind → ℕ
  | .Nature _ => 0 | .Building => 1 | .Way _ => 2 | .Route => 3 | .AdminLine => 4 | .Poi _ => 5

/-- Derived `Ord` of `MapGeomObjectKind`: variant declaration index first,
then payload `Ord` when the variants coincide. -/
def MapGeomObjectKind.cmp (a b : MapGeomObjectKind) : Ordering :=
  match a, b with
  | .Nature i, .Nature j => i.cmp j
  | .Way i, .Way j => i.cmp j
  | .Poi i, .Poi j => i.cmp j
  | _, _ => compare a.idx b.idx

/-- Manual `Ord` of `MapGeomObject` (`map/mod.rs` lines 202-206): compares the
kind only; the id is ignored. -/
def MapGeomObject.cmp (a b : MapGeomObject) : Ordering := a.kind.cmp b.kind

/-- First payload sort key of a kind (nature index / layer-kind index / POI
kind index). -/
def kindS1 : MapGeomObjectKind → ℕ
  | .Nature k => k.idx
  | .Way i => i.layer_kind.idx
  | .Poi p => p.kind.idx
  | _ => 0

/-- Population-area level of a POI kind (0 for the other variants). -/
def MapPointObjectKind.lvl : MapPointObjectKind → ℤ
  | .PopArea a => a.level
  | _ => 0

/-- Population of a POI kind (0 for the other variants). -/
def MapPointObjectKind.pop : MapPointObjectKind → ℕ
  | .PopArea a => a.population
  | _ => 0

/-- Second payload sort key (way layer / POI population-area level). -/
def kindS2 : MapGeomObjectKind → ℤ
  | .Way i => i.layer
  | .Poi p => p.kind.lvl
  | _ => 0

/-- Third payload sort key (way render rank / POI population). -/
def kindS3 : MapGeomObjectKind → ℕ
  | .Way i => i.line_kind.get_layer
  | .Poi p => p.kind.pop
  | _ => 0

/-- The non-strict order decided by `MapGeomObject.cmp`, written as an
explicit lexicographic formula over the sort keys. -/
def keyLe (a b : MapGeomObject) : Prop :=
  a.kind.idx < b.kind.idx ∨
    (a.kind.idx = b.kind.idx ∧
      (kindS1 a.kind < kindS1 b.kind ∨
        (kindS1 a.kind = kindS1 b.kind ∧
          (kindS2 a.kind < kindS2 b.kind ∨
            (kindS2 a.kind = kindS2 b.kind ∧ kindS3 a.kind ≤ kindS3 b.kind)))))

theorem Ordering_then_ne_gt {o₁ o₂ : Ordering} :
    o₁.then o₂ ≠ .gt ↔ (o₁ = .lt ∨ (o₁ = .eq ∧ o₂ ≠ .gt)) := by
  cases o₁ <;> simp [Ordering.then]

theorem pointKindCmp_ne_gt_iff (p q : MapPointObjectKind) :
    MapPointObjectKind.cmp p q ≠ .gt ↔
      (p.idx < q.idx ∨ (p.idx = q.idx ∧
        (p.lvl < q.lvl ∨ (p.lvl = q.lvl ∧ p.pop ≤ q.pop)))) := by
  cases p <;> cases q <;>
    simp only [MapPointObjectKind.cmp, MapPointObjectKind.idx, MapPointObjectKind.lvl,
      MapPointObjectKind.pop, PopAreaInfo.cmp, Ordering_then_ne_gt, ne_eq,
      compare_eq_iff_eq, compare_lt_iff_lt, compare_gt_iff_gt] <;>
    (try norm_num) <;> omega

theorem cmp_ne_gt_iff_keyLe (a b : MapGeomObject) :
    MapGeomObject.cmp a b ≠ .gt ↔ keyLe a b := by
  obtain ⟨ia, ka⟩ := a
  obtain ⟨ib, kb⟩ := b
  cases ka <;> cases kb <;>
    simp only [MapGeomObject.cmp, MapGeomObjectKind.cmp, MapGeomObjectKind.idx,
      NatureKind.cmp, WayInfo.cmp, MapPointInfo.cmp, LayerKind.cmp, keyLe,
      kindS1, kindS2, kindS3, pointKindCmp_ne_gt_iff,
      Ordering_then_ne_gt, ne_eq, compare_eq_iff_eq, compare_lt_iff_lt,
      compare_gt_iff_gt] <;>
    (try norm_num) <;> omega

theorem keyLe_trans {a b c : MapGeomObject} (h₁ : keyLe a b) (h₂ : keyLe b c) : keyLe a c := by
  unfold keyLe at *
  omega

theorem keyLe_total (a b : MapGeomObject) : keyLe a b ∨ keyLe b a := by
  unfold keyLe
  omega

/-- Layer-kind rank exactly as the claim words it: `Tunnel < None < Bridge`. -/
def layerKindPainterRank : LayerKind → ℕ
  | .Tunnel => 0 | .None => 1 | .Bridge => 2

/-- Variant declaration rank of `MapGeomObjectKind`, as the claim words it. -/
def kindDeclarationRank : MapGeomObjectKind → ℕ
  | .Nature _ => 0 | .Building => 1 | .Way _ => 2 | .Route => 3 | .AdminLine => 4 | .Poi _ => 5

/-- The order asserted by the claim: ascending variant declaration order, and
for two `Way` objects `layer_kind` (Tunnel < None < Bridge), then `layer`,
then the render rank of `line_kind`; the name plays no role. -/
def specPainterLe (a b : MapGeomObject) : Prop :=
  kindDeclarationRank a.kind < kindDeclarationRank b.kind ∨
    (kindDeclarationRank a.kind = kindDeclarationRank b.kind ∧
      ∀ wa wb, a.kind = .Way wa → b.kind = .Way wb →
        (layerKindPainterRank wa.layer_kind < layerKindPainterRank wb.layer_kind ∨
          (layerKindPainterRank wa.layer_kind = layerKindPainterRank wb.layer_kind ∧
            (wa.layer < wb.layer ∨
              (wa.layer = wb.layer ∧ wa.line_kind.get_layer ≤ wb.line_kind.get_layer)))))

theorem layerKind_idx_eq_painterRank (k : LayerKind) : k.idx = layerKindPainterRank k := by
  cases k <;> rfl

theorem kind_idx_eq_declarationRank (k : MapGeomObjectKind) :
    k.idx = kindDeclarationRank k := by
  cases k <;> rfl

theorem keyLe_imp_specPainterLe {a b : MapGeomObject} (h : keyLe a b) : specPainterLe a b := by
  unfold keyLe at h
  unfold specPainterLe
  rw [← kind_idx_eq_declarationRank, ← kind_idx_eq_declarationRank]
  rcases h with h | ⟨heq, h⟩
  · exact Or.inl h
  · refine Or.inr ⟨heq, ?_⟩
    intro wa wb ha hb
    rw [← layerKind_idx_eq_painterRank, ← layerKind_idx_eq_painterRank]
    rw [ha, hb] at h
    simpa [kindS1, kindS2, kindS3] using h

/-- The per-tile sort performed by `TileWriter::perform_queries` (line 250):
`data.0.sort_by(|(a, _), (b, _)| a.cmp(b))`, a stable sort by the
`MapGeomObject` comparator. -/
def perform_queries_sort (data : List (MapGeomObject × MapGeometry)) :
    List (MapGeomObject × MapGeometry) :=
  data.mergeSort fun x y => decide (MapGeomObject.cmp x.1 y.1 ≠ .gt)

/-- **C5.** Every tile collection persisted by `save_to_file` is sorted
ascending by the claimed `MapGeomObject` total order: variant declaration
order of the kinds, and for two `Way` objects layer kind (Tunnel < None <
Bridge), then layer, then render rank — the name field playing no role in the
order. -/
theorem perform_queries_sort_sorted (data : List (MapGeomObject × MapGeometry)) :
    List.Pairwise (fun x y => specPainterLe x.1 y.1) (perform_queries_sort data) := by
  have hsorted := @List.sorted_mergeSort (MapGeomObject × MapGeometry)
    (fun x y : MapGeomObject × MapGeometry => decide (MapGeomObject.cmp x.1 y.1 ≠ .gt))
    (fun x y z hxy hyz => by
      have hxy' := (cmp_ne_gt_iff_keyLe x.1 y.1).mp (of_decide_eq_true hxy)
      have hyz' := (cmp_ne_gt_iff_keyLe y.1 z.1).mp (of_decide_eq_true hyz)
      exact decide_eq_true ((cmp_ne_gt_iff_keyLe x.1 z.1).mpr (keyLe_trans hxy' hyz')))
    (fun x y => by
      simp only [Bool.or_eq_true, decide_eq_true_eq]
      rcases keyLe_total x.1 y.1 with h | h
      · exact Or.inl ((cmp_ne_gt_iff_keyLe x.1 y.1).mpr h)
      · exact Or.inr ((cmp_ne_gt_iff_keyLe y.1 x.1).mpr h))
    data
  refine hsorted.imp ?_
  intro x y hxy
  exact keyLe_imp_specPainterLe ((cmp_ne_gt_iff_keyLe x.1 y.1).mp (of_decide_eq_true hxy))

/-! ## C4: polyline clipping against a tile rectangle
(`TileWriter::intersection`, `src/osm/src/tile_writer/tile_writer.rs` lines
134-157, and the identical `TileRanges::intersection`,
`src/osm/src/tiles/mod.rs` lines 54-75).

The two geometric tests — `tile_rect.contains(&coord)` and
`Self::rect_intersection(tile_rect, &line).is_none()` — are geo externals and
enter the embedding as the parameters `inside` and `crosses`. -/

/-- The per-segment restart condition of the `MapGeometry::Line` branch: both
endpoints outside the rectangle and no intersection of the segment with any
rectangle edge. -/
def lineClipBreak (inside : Coord → Bool) (crosses : Coord → Coord → Bool)
    (a b : Coord) : Bool :=
  !inside a && !inside b && !crosses a b

/-- The `for (index, coord)` loop of the `Line` branch, from the state where
`new_line = buf` and the previously visited coordinate is `prev`: on a
breaking segment the buffer is flushed when it has more than one vertex and a
new buffer starts at the segment's end; otherwise the vertex is appended.  The
final buffer is flushed under the same length condition. -/
def clipLineGo (brk : Coord → Coord → Bool) (buf : List Coord) (prev : Coord) :
    List Coord → List (List Coord)
  | [] => if 1 < buf.length then [buf] else []
  | c :: rest =>
      if brk prev c then
        (if 1 < buf.length then [buf] else []) ++ clipLineGo brk [c] c rest
      else
        clipLineGo brk (buf ++ [c]) c rest

/-- The `MapGeometry::Line` branch of `intersection`: walk the coordinates,
splitting into sub-polylines. -/
def clipLine (brk : Coord → Coord → Bool) : List Coord → List (List Coord)
  | [] => []
  | c :: rest => clipLineGo brk [c] c rest

/-- Split a polyline into maximal runs of consecutive vertices joined by
non-breaking segments — the decomposition the claim describes. -/
def splitRuns (brk : Coord → Coord → Bool) : List Coord → List (List Coord)
  | [] => []
  | [c] => [[c]]
  | a :: b :: rest =>
      match splitRuns brk (b :: rest) with
      | [] => [[a]]
      | r :: rs => if brk a b then [a] :: r :: rs else (a :: r) :: rs

/-- The claim-side description of line clipping: cut the polyline exactly at
the segments whose endpoints both lie outside the rectangle and which do not
cross it, then keep the pieces with at least two vertices. -/
def clipLineSpec (brk : Coord → Coord → Bool) (coords : List Coord) :
    List (List Coord) :=
  (splitRuns brk coords).filter (fun l => 1 < l.length)

theorem splitRuns_cons_shape (brk : Coord → Coord → Bool) (x : Coord) (xs : List Coord) :
    ∃ t rs, splitRuns brk (x :: xs) = (x :: t) :: rs := by
  induction xs generalizing x with
  | nil => exact ⟨[], [], rfl⟩
  | cons b rest ih =>
      obtain ⟨t, rs, h⟩ := ih b
      by_cases hbrk : brk x b = true
      · exact ⟨[], (b :: t) :: rs, by simp [splitRuns, h, hbrk]⟩
      · exact ⟨b :: t, rs, by simp [splitRuns, h, hbrk]⟩

theorem clipLineGo_eq_splitRuns (brk : Coord → Coord → Bool) (rest : List Coord) :
    ∀ init prev,
      clipLineGo brk (init ++ [prev]) prev rest =
        ((splitRuns brk (prev :: rest)).modifyHead (init ++ ·)).filter
          (fun l => 1 < l.length) := by
  induction rest with
  | nil =>
      intro init prev
      have hlen : (1 < (init ++ [prev]).length) ↔ (0 < init.length) := by
        simp
      by_cases h0 : 0 < init.length
      · simp [clipLineGo, splitRuns, List.modifyHead, List.filter_cons, hlen, h0]
      · simp [clipLineGo, splitRuns, List.modifyHead, List.filter_cons, hlen, h0]
  | cons c rest' ih =>
      intro init prev
      obtain ⟨t, rs, hshape⟩ := splitRuns_cons_shape brk c rest'
      by_cases hbrk : brk prev c = true
      · have hstep : clipLineGo brk (init ++ [prev]) prev (c :: rest') =
            (if 1 < (init ++ [prev]).length then [init ++ [prev]] else []) ++
              clipLineGo brk [c] c rest' := by
          simp [clipLineGo, hbrk]
        rw [hstep]
        have hih := ih [] c
        simp only [List.nil_append, hshape, List.modifyHead] at hih
        rw [hih]
        simp only [splitRuns, hshape, hbrk, if_pos rfl, List.modifyHead]
        have hlen : (1 < (init ++ [prev]).length) ↔ (0 < init.length) := by
          simp
        by_cases h0 : 0 < init.length
        · simp [List.filter_cons, hlen, h0]
        · simp [List.filter_cons, hlen, h0]
      · have hstep : clipLineGo brk (init ++ [prev]) prev (c :: rest') =
            clipLineGo brk ((init ++ [prev]) ++ [c]) c rest' := by
          simp [clipLineGo, hbrk]
        rw [hstep, ih (init ++ [prev]) c]
        simp only [splitRuns, hshape, hbrk, if_neg, List.modifyHead]
        simp

theorem clipLine_eq_clipLineSpec (brk : Coord → Coord → Bool) (coords : List Coord) :
    clipLine brk coords = clipLineSpec brk coords := by
  cases coords with
  | nil => rfl
  | cons c rest =>
      have := clipLineGo_eq_splitRuns brk rest [] c
      simp only [List.nil_append] at this
      rw [clipLine, this, clipLineSpec]
      obtain ⟨t, rs, hshape⟩ := splitRuns_cons_shape brk c rest
      simp [hshape, List.modifyHead]

theorem splitRuns_join (brk : Coord → Coord → Bool) (coords : List Coord) :
    (splitRuns brk coords).join = coords := by
  induction coords with
  | nil => rfl
  | cons a rest ih =>
      cases rest with
      | nil => rfl
      | cons b rest' =>
          obtain ⟨t, rs, hshape⟩ := splitRuns_cons_shape brk b rest'
          rw [hshape] at ih
          by_cases hbrk : brk a b = true <;>
            simp_all [splitRuns, hshape, hbrk]

theorem filter_join_sublist {α : Type} (p : List α → Bool) (l : List (List α)) :
    (l.filter p).join.Sublist l.join := by
  induction l with
  | nil => simp
  | cons a rest ih =>
      by_cases hp : p a = true
      · simpa [List.filter, hp] using ih.append_left a
      · simp only [List.filter, hp]
        exact ih.trans (by simp [List.sublist_append_right])

/-- **C4.** The `Line` branch of the tile clipper walks consecutive vertex
pairs and starts a new output sub-line exactly at the segments whose two
endpoints lie outside the rectangle and which do not cross it (closing the
current sub-line only when it has at least two vertices) — i.e. it equals the
claim-side run decomposition; every emitted sub-polyline has at least two
vertices; and the concatenated output is a subsequence of the input vertices
(original order, no new vertices). -/
theorem intersection_line_clip_correct (inside : Coord → Bool)
    (crosses : Coord → Coord → Bool) (coords : List Coord) :
    clipLine (lineClipBreak inside crosses) coords =
        clipLineSpec (lineClipBreak inside crosses) coords ∧
      (∀ l ∈ clipLine (lineClipBreak inside crosses) coords, 2 ≤ l.length) ∧
      (clipLine (lineClipBreak inside crosses) coords).join.Sublist coords := by
  refine ⟨clipLine_eq_clipLineSpec _ coords, ?_, ?_⟩
  · intro l hl
    rw [clipLine_eq_clipLineSpec, clipLineSpec] at hl
    have h2 := List.of_mem_filter hl
    simp only [decide_eq_true_eq] at h2
    omega
  · rw [clipLine_eq_clipLineSpec, clipLineSpec]
    have h1 := filter_join_sublist (fun l : List Coord => decide (1 < l.length))
      (splitRuns (lineClipBreak inside crosses) coords)
    rwa [splitRuns_join] at h1

/-! ## C3: `PolygonStore::merge_polygons`
(`src/osm_tool/src/polygon_store.rs` lines 183-225).

The element type of the reduction (geo `MultiPolygon`), the boolean-ops
`union` and the final `simplify_vw(1e-8)` come from the external geo crate;
they enter the embedding as the type parameter `α` and the function
parameters `u` and `simplifyVw`.  The region meaning of a multipolygon is the
parameter `sem`, with the sole assumption that `union` denotes set union of
regions. -/

/-- The inner `loop` of `merge_polygons`: starting at index `i`, replace
`polygons[i]` by `union(polygons[i], polygons[i + half])`, advance by `step`,
and stop when `i + half` would run past the end (the `set!` keeps the length,
so the updated array's length is `arr.size`). -/
def mergeRoundGo {α : Type} [Inhabited α] (u : α → α → α) (arr : Array α)
    (i half step : ℕ) (hstep : 0 < step) : Array α :=
  if i + step + half ≥ arr.size then
    arr.set! i (u (arr.get! i) (arr.get! (i + half)))
  else
    mergeRoundGo u (arr.set! i (u (arr.get! i) (arr.get! (i + half))))
      (i + step) half step hstep
termination_by arr.size - i
decreasing_by
  simp only [Array.set!_is_setD, Array.size_setD] at *
  omega

theorem mergeRoundGo_size {α : Type} [Inhabited α] (u : α → α → α)
    (half step : ℕ) (hstep : 0 < step) :
    ∀ arr i, (mergeRoundGo u arr i half step hstep).size = arr.size := by
  intro arr i
  generalize hM : arr.size - i = M
  induction M using Nat.strong_induction_on generalizing arr i with
  | _ M ih =>
      rw [mergeRoundGo]
      split
      · simp
      · rename_i h
        simp only [ge_iff_le, not_le] at h
        rw [ih ((arr.set! i (u (arr.get! i) (arr.get! (i + half)))).size - (i + step))
          (by simp only [Array.set!_is_setD, Array.size_setD] at *; omega) _ _ rfl]
        simp

/-- The outer `loop` of `merge_polygons`: with `half_step = step` and
`step *= 2`, run one reduction round, then stop once `step` reaches the
length (the reduction round keeps the length). -/
def mergeOuterLoop {α : Type} [Inhabited α] (u : α → α → α) (arr : Array α)
    (step : ℕ) (hstep : 0 < step) : Array α :=
  if step * 2 ≥ (mergeRoundGo u arr 0 step (step * 2) (by omega)).size then
    mergeRoundGo u arr 0 step (step * 2) (by omega)
  else
    mergeOuterLoop u (mergeRoundGo u arr 0 step (step * 2) (by omega)) (step * 2) (by omega)
termination_by arr.size - step
decreasing_by
  rename_i h
  rw [mergeRoundGo_size] at h
  simp only [ge_iff_le, not_le] at h
  rw [mergeRoundGo_size]
  omega

/-- The union-reduction part of `merge_polygons`: for a single polygon the
first element, otherwise the balanced pairwise reduction leaving the total in
slot 0. -/
def merge_polygons_union {α : Type} [Inhabited α] (u : α → α → α)
    (polygons : List α) : α :=
  if polygons.length ≤ 1 then polygons.toArray.get! 0
  else (mergeOuterLoop u polygons.toArray 1 (by omega)).get! 0

/-- `merge_polygons` from `polygon_store.rs`: empty input yields the empty
multipolygon; otherwise the reduction result (slot 0) is simplified with
Visvalingam–Whyatt ε = 1e-8 (`simplifyVw`). -/
def merge_polygons {α : Type} [Inhabited α] (u : α → α → α) (simplifyVw : α → α)
    (emptyMP : α) (polygons : List α) : α :=
  if polygons.length = 0 then emptyMP
  else if polygons.length = 1 then simplifyVw (polygons.toArray.get! 0)
  else simplifyVw ((mergeOuterLoop u polygons.toArray 1 (by omega)).get! 0)

/-- Union of the regions of a list of multipolygons. -/
def segUnion {α : Type} (sem : α → Set (ℚ × ℚ)) : List α → Set (ℚ × ℚ)
  | [] => ∅
  | a :: rest => sem a ∪ segUnion sem rest

theorem segUnion_append {α : Type} (sem : α → Set (ℚ × ℚ)) (l₁ l₂ : List α) :
    segUnion sem (l₁ ++ l₂) = segUnion sem l₁ ∪ segUnion sem l₂ := by
  induction l₁ with
  | nil => simp [segUnion]
  | cons a rest ih => simp [segUnion, ih, Set.union_assoc]

theorem foldl_sem {α : Type} (u : α → α → α) (sem : α → Set (ℚ × ℚ))
    (hsem : ∀ a b, sem (u a b) = sem a ∪ sem b) :
    ∀ (rest : List α) (p : α), sem (rest.foldl u p) = segUnion sem (p :: rest) := by
  intro rest
  induction rest with
  | nil => intro p; simp [segUnion]
  | cons r rest' ih =>
      intro p
      have := ih (u p r)
      simp only [List.foldl_cons]
      rw [this]
      simp [segUnion, hsem, Set.union_assoc]

/-- Region of the width-`w` block of the original list starting at `j`. -/
def seg {α : Type} (sem : α → Set (ℚ × ℚ)) (L : List α) (j w : ℕ) : Set (ℚ × ℚ) :=
  segUnion sem ((L.drop j).take w)

theorem seg_add {α : Type} (sem : α → Set (ℚ × ℚ)) (L : List α) (j w : ℕ) :
    seg sem L j (w + w) = seg sem L j w ∪ seg sem L (j + w) w := by
  unfold seg
  rw [List.take_add, segUnion_append, List.drop_drop]

theorem seg_of_overlong {α : Type} (sem : α → Set (ℚ × ℚ)) (L : List α) (j w w' : ℕ)
    (hw : L.length ≤ j + w) (hw' : w ≤ w') : seg sem L j w = seg sem L j w' := by
  unfold seg
  rw [List.take_of_length_le (by simp; omega), List.take_of_length_le (by simp; omega)]

theorem array_get_bang_of_getElem? {α : Type} [Inhabited α] {a : Array α} {i : ℕ} {v : α}
    (h : a[i]? = some v) : a.get! i = v := by
  rw [Array.get!_eq_getD, Array.getD_eq_get?, h]
  rfl

theorem getElem?_setD_ne {α : Type} (a : Array α) {i j : ℕ} (v : α) (hne : i ≠ j) :
    (a.setD i v)[j]? = a[j]? := by
  unfold Array.setD
  split
  · exact Array.getElem?_set_ne _ _ _ hne
  · rfl

/-- Pointwise description of one reduction round, relative to the array `a` at
round entry. -/
theorem mergeRoundGo_spec {α : Type} [Inhabited α] (u : α → α → α) (a : Array α)
    (half step : ℕ) (hstep : 0 < step) (hhalf : 0 < half) (hhs : half < step) :
    ∀ m cur, cur.size = a.size → (∀ j, m * step ≤ j → cur[j]? = a[j]?) →
      m * step + half < a.size →
      (mergeRoundGo u cur (m * step) half step hstep).size = a.size ∧
      (∀ j, j < m * step →
        (mergeRoundGo u cur (m * step) half step hstep)[j]? = cur[j]?) ∧
      (∀ k, m ≤ k → k * step < a.size → k * step + half < a.size →
        (mergeRoundGo u cur (m * step) half step hstep)[k * step]? =
          some (u (a.get! (k * step)) (a.get! (k * step + half)))) ∧
      (∀ k, m ≤ k → k * step < a.size → a.size ≤ k * step + half →
        (mergeRoundGo u cur (m * step) half step hstep)[k * step]? = a[k * step]?) := by
  intro m cur
  generalize hM : a.size - m * step = M
  induction M using Nat.strong_induction_on generalizing m cur with
  | _ M ih =>
      intro hsize hagree hin
      have hget_i : cur.get! (m * step) = a.get! (m * step) := by
        rw [Array.get!_eq_getD, Array.get!_eq_getD, Array.getD_eq_get?, Array.getD_eq_get?,
          hagree (m * step) (le_refl _)]
      have hget_h : cur.get! (m * step + half) = a.get! (m * step + half) := by
        rw [Array.get!_eq_getD, Array.get!_eq_getD, Array.getD_eq_get?, Array.getD_eq_get?,
          hagree (m * step + half) (by omega)]
      rw [mergeRoundGo]
      by_cases hstop : m * step + step + half ≥ cur.size
      · rw [if_pos hstop]
        refine ⟨by simp [hsize], ?_, ?_, ?_⟩
        · intro j hj
          have hne : m * step ≠ j := by omega
          simp only [Array.set!_is_setD]
          exact getElem?_setD_ne _ _ hne
        · intro k hk hklt hkin
          have hkm : k = m := by
            by_contra hneq
            have hk1 : m + 1 ≤ k := by omega
            have hmul := Nat.mul_le_mul_right step hk1
            rw [Nat.succ_mul] at hmul
            omega
          subst hkm
          simp only [Array.set!_is_setD]
          rw [hget_i, hget_h]
          have hlt2 : k * step < cur.size := by omega
          exact Array.getElem?_setD_eq _ hlt2 _
        · intro k hk hklt hkout
          have hkne : k ≠ m := by
            intro he
            subst he
            omega
          have hk1 : m + 1 ≤ k := by omega
          have hmul := Nat.mul_le_mul_right step hk1
          rw [Nat.succ_mul] at hmul
          have hne : m * step ≠ k * step := by omega
          simp only [Array.set!_is_setD]
          rw [getElem?_setD_ne _ _ hne]
          exact hagree _ (by omega)
      · rw [if_neg hstop]
        have hagree2 : ∀ j, (m + 1) * step ≤ j →
            (cur.set! (m * step) (u (cur.get! (m * step)) (cur.get! (m * step + half))))[j]? =
              a[j]? := by
          intro j hj
          rw [Nat.succ_mul] at hj
          have hne : m * step ≠ j := by omega
          simp only [Array.set!_is_setD]
          rw [getElem?_setD_ne _ _ hne]
          exact hagree j (by omega)
        have hin2 : (m + 1) * step + half < a.size := by
          rw [Nat.succ_mul]
          omega
        have hMlt : a.size - (m + 1) * step < M := by
          rw [Nat.succ_mul]
          omega
        have hrec := ih (a.size - (m + 1) * step) hMlt (m + 1)
          (cur.set! (m * step) (u (cur.get! (m * step)) (cur.get! (m * step + half))))
          rfl (by simp [hsize]) hagree2 hin2
        have harg : m * step + step = (m + 1) * step := (Nat.succ_mul m step).symm
        rw [harg]
        obtain ⟨hC, hE, hA, hB⟩ := hrec
        refine ⟨hC, ?_, ?_, ?_⟩
        · intro j hj
          rw [hE j (by rw [Nat.succ_mul]; omega)]
          have hne : m * step ≠ j := by omega
          simp only [Array.set!_is_setD]
          exact getElem?_setD_ne _ _ hne
        · intro k hk hklt hkin
          rcases Nat.lt_or_ge k (m + 1) with hmk | hmk
          · have hkm : k = m := by omega
            subst hkm
            rw [hE (k * step) (by rw [Nat.succ_mul]; omega)]
            simp only [Array.set!_is_setD]
            rw [hget_i, hget_h]
            have hlt2 : k * step < cur.size := by omega
            exact Array.getElem?_setD_eq _ hlt2 _
          · exact hA k hmk hklt hkin
        · intro k hk hklt hkout
          rcases Nat.lt_or_ge k (m + 1) with hmk | hmk
          · exfalso
            have hkm : k = m := by omega
            subst hkm
            omega
          · exact hB k hmk hklt hkout

/-- The block invariant: slot `k·w` of the array holds (semantically) the
union of the original polygons in the width-`w` block starting at `k·w`. -/
def SegInv {α : Type} [Inhabited α] (sem : α → Set (ℚ × ℚ)) (L : List α) (w : ℕ)
    (arr : Array α) : Prop :=
  arr.size = L.length ∧
    ∀ k, k * w < arr.size → ∃ v, arr[k * w]? = some v ∧ sem v = seg sem L (k * w) w

theorem mergeRound_segInv {α : Type} [Inhabited α] (u : α → α → α)
    (sem : α → Set (ℚ × ℚ)) (hsem : ∀ a b, sem (u a b) = sem a ∪ sem b)
    (L : List α) (w : ℕ) (hw : 0 < w) (arr : Array α)
    (hinv : SegInv sem L w arr) (hin : w < arr.size) :
    SegInv sem L (w * 2) (mergeRoundGo u arr 0 w (w * 2) (by omega)) := by
  obtain ⟨hsize, hval⟩ := hinv
  have hspec := mergeRoundGo_spec u arr w (w * 2) (by omega) hw (by omega)
    0 arr rfl (fun j _ => rfl) (by simpa using hin)
  simp only [Nat.zero_mul] at hspec
  obtain ⟨hC, _, hA, hB⟩ := hspec
  refine ⟨by rw [hC, hsize], ?_⟩
  intro k hk
  rw [hC] at hk
  have e1 : (2 * k) * w = k * (w * 2) := by ring
  by_cases hkin : k * (w * 2) + w < arr.size
  · have e2 : (2 * k + 1) * w = k * (w * 2) + w := by ring
    obtain ⟨v1, hv1, hs1⟩ := hval (2 * k) (by rw [e1]; omega)
    obtain ⟨v2, hv2, hs2⟩ := hval (2 * k + 1) (by rw [e2]; omega)
    rw [e1] at hv1 hs1
    rw [e2] at hv2 hs2
    refine ⟨u v1 v2, ?_, ?_⟩
    · rw [hA k (by omega) hk hkin]
      rw [array_get_bang_of_getElem? hv1, array_get_bang_of_getElem? hv2]
    · rw [hsem, hs1, hs2]
      have hmt : w * 2 = w + w := by ring
      rw [hmt, seg_add]
  · obtain ⟨v1, hv1, hs1⟩ := hval (2 * k) (by rw [e1]; omega)
    rw [e1] at hv1 hs1
    refine ⟨v1, ?_, ?_⟩
    · rw [hB k (by omega) hk (by omega)]
      exact hv1
    · rw [hs1]
      exact seg_of_overlong sem L _ w (w * 2) (by omega) (by omega)

theorem mergeOuterLoop_sem {α : Type} [Inhabited α] (u : α → α → α)
    (sem : α → Set (ℚ × ℚ)) (hsem : ∀ a b, sem (u a b) = sem a ∪ sem b)
    (L : List α) :
    ∀ step arr (hstep : 0 < step), step < arr.size → SegInv sem L step arr →
      ∃ v, (mergeOuterLoop u arr step hstep)[0]? = some v ∧
        sem v = segUnion sem L := by
  intro step arr
  generalize hM : arr.size - step = M
  induction M using Nat.strong_induction_on generalizing step arr with
  | _ M ih =>
      intro hstep hlt hinv
      have hround := mergeRound_segInv u sem hsem L step hstep arr hinv hlt
      obtain ⟨hsizeA, _⟩ := hinv
      rw [mergeOuterLoop]
      by_cases hstop :
          step * 2 ≥ (mergeRoundGo u arr 0 step (step * 2) (by omega)).size
      · rw [if_pos hstop]
        obtain ⟨hsize2, hval2⟩ := hround
        have h0lt : 0 * (step * 2) <
            (mergeRoundGo u arr 0 step (step * 2) (by omega)).size := by
          rw [Nat.zero_mul, mergeRoundGo_size]
          omega
        obtain ⟨v, hv, hs⟩ := hval2 0 h0lt
        rw [Nat.zero_mul] at hv hs
        refine ⟨v, hv, ?_⟩
        rw [hs]
        unfold seg
        rw [List.drop_zero, List.take_of_length_le ?hlen]
        case hlen =>
          rw [mergeRoundGo_size] at hstop
          omega
      · rw [if_neg hstop]
        have hsz : (mergeRoundGo u arr 0 step (step * 2) (by omega : 0 < step * 2)).size
            = arr.size := mergeRoundGo_size u step (step * 2) _ arr 0
        exact ih ((mergeRoundGo u arr 0 step (step * 2) (by omega)).size - step * 2)
          (by rw [hsz]; omega) (step * 2)
          (mergeRoundGo u arr 0 step (step * 2) (by omega)) rfl (by omega)
          (by rw [hsz]; rw [hsz] at hstop; omega) hround

/-- **C3.** `merge_polygons` of a non-empty input returns exactly the
Visvalingam–Whyatt (ε = 1e-8) simplification of the balanced pairwise union
reduction's slot 0, and — whenever `union` denotes set union of regions — that
reduction result is, as a region, the union of all input polygons, i.e. equal
to a naive sequential fold of `union` over the inputs. -/
theorem merge_polygons_tree_reduction_eq_fold {α : Type} [Inhabited α]
    (u : α → α → α) (simplifyVw : α → α) (emptyMP : α) (sem : α → Set (ℚ × ℚ))
    (hsem : ∀ a b, sem (u a b) = sem a ∪ sem b) (p : α) (rest : List α) :
    merge_polygons u simplifyVw emptyMP (p :: rest) =
        simplifyVw (merge_polygons_union u (p :: rest)) ∧
      sem (merge_polygons_union u (p :: rest)) = sem (rest.foldl u p) := by
  constructor
  · have h0 : ¬(p :: rest).length = 0 := by simp
    by_cases h1 : (p :: rest).length = 1
    · rw [merge_polygons, merge_polygons_union, if_neg h0, if_pos h1,
        if_pos (le_of_eq h1)]
    · have h2 : ¬(p :: rest).length ≤ 1 := by
        simp only [List.length_cons] at h1 ⊢
        omega
      rw [merge_polygons, merge_polygons_union, if_neg h0, if_neg h1, if_neg h2]
  · rw [foldl_sem u sem hsem]
    by_cases h1 : (p :: rest).length ≤ 1
    · have hrest : rest = [] := by
        cases rest with
        | nil => rfl
        | cons a l => simp at h1
      subst hrest
      rw [merge_polygons_union, if_pos (by simp)]
      simp [segUnion]
    · rw [merge_polygons_union, if_neg h1]
      have hlen : 1 < (p :: rest).length := by omega
      have hinv : SegInv sem (p :: rest) 1 (p :: rest).toArray := by
        refine ⟨by simp, ?_⟩
        intro k hk
        simp only [Nat.mul_one]
        simp only [Array.size_toArray] at hk
        have hk2 : k < (p :: rest).length := by simpa using hk
        refine ⟨(p :: rest).get ⟨k, hk2⟩, ?_, ?_⟩
        · rw [List.getElem?_toArray]
          simp [List.getElem?_eq_getElem hk2]
        · unfold seg
          rw [List.take_one_drop_eq_of_lt_length hk2]
          simp [segUnion]
      obtain ⟨v, hv, hs⟩ := mergeOuterLoop_sem u sem hsem (p :: rest) 1
        (p :: rest).toArray (by omega) (by simpa using hlen) hinv
      rw [array_get_bang_of_getElem? hv, hs]

/-- Witness for C3: regions themselves with set union. -/
theorem merge_polygons_tree_reduction_eq_fold_witness :
    merge_polygons (α := Set (ℚ × ℚ)) (· ∪ ·) id ∅
          [{(0, 0)}, {(1, 1)}, {(2, 2)}] =
        id (merge_polygons_union (α := Set (ℚ × ℚ)) (· ∪ ·)
          [{(0, 0)}, {(1, 1)}, {(2, 2)}]) ∧
      id (merge_polygons_union (α := Set (ℚ × ℚ)) (· ∪ ·)
          [{(0, 0)}, {(1, 1)}, {(2, 2)}]) =
        id ([({(1, 1)} : Set (ℚ × ℚ)), {(2, 2)}].foldl (· ∪ ·) {(0, 0)}) :=
  merge_polygons_tree_reduction_eq_fold (· ∪ ·) id ∅ id (fun a b => rfl)
    {(0, 0)} [{(1, 1)}, {(2, 2)}]

/-! ## C6: `PolygonStore::process_forests`
(`src/osm_tool/src/polygon_store.rs` lines 39-164).

The geo crate supplies `unsigned_area` and `simplify_vw`; they are modelled
below from their documented behaviour.  The merge/aggregation phases A-C
(pairwise union, R-tree drain, concave hull) only produce the polygon list
that the per-zoom filter-simplify-emit phase consumes, so they enter the
embedding as the opaque parameter `aggregate`; the counterexample runs with
`merge_enabled = false`, where the code skips them entirely. -/

/-- `POLYGON_MERGE_ZOOM_LEVEL` from `src/osm_tool/src/main.rs` line 75. -/
def POLYGON_MERGE_ZOOM_LEVEL : ℕ := 3

/-- Twice the signed shoelace sum over consecutive vertex pairs of a ring
(rings carry their closing point explicitly, as geo's `LineString` rings do). -/
def twiceSignedRingArea : List Coord → ℚ
  | [] => 0
  | [_] => 0
  | a :: b :: rest => (a.x * b.y - b.x * a.y) + twiceSignedRingArea (b :: rest)

/-- Modelled from the spec: geo's `Area::signed_area` for a polygon — the sum
of the shoelace areas of the exterior and interior rings (interiors, being
oppositely wound, contribute negatively). -/
def Polygon.signed_area (p : Polygon) : ℚ :=
  twiceSignedRingArea p.exterior / 2 +
    (p.interiors.map (fun r => twiceSignedRingArea r / 2)).sum

/-- Modelled from the spec: geo's `Area::unsigned_area` — the absolute value
of the signed area. -/
def Polygon.unsigned_area (p : Polygon) : ℚ :=
  |p.signed_area|

/-- Effective (triangle) area of the middle vertex. -/
def triArea (a b c : Coord) : ℚ :=
  |(b.x - a.x) * (c.y - a.y) - (c.x - a.x) * (b.y - a.y)| / 2

/-- Removable-vertex candidates of a ring: every index with a neighbour on
each side (the first and last points are pinned), with its effective area. -/
def vwCandidates (pts : List Coord) : List (ℕ × ℚ) :=
  (List.range pts.length).filterMap fun i =>
    if h : 1 ≤ i ∧ i + 1 < pts.length then
      some (i, triArea (pts.get ⟨i - 1, by omega⟩) (pts.get ⟨i, by omega⟩)
        (pts.get ⟨i + 1, by omega⟩))
    else none

/-- The candidate of least effective area (first index on ties). -/
def vwMin (pts : List Coord) : Option (ℕ × ℚ) :=
  (vwCandidates pts).foldl
    (fun acc c =>
      match acc with
      | none => some c
      | some m => if c.2 < m.2 then some c else some m)
    none

/-- One Visvalingam–Whyatt step: drop the least-area vertex when its
effective area is below the threshold. -/
def vwStep (eps : ℚ) (pts : List Coord) : Option (List Coord) :=
  match vwMin pts with
  | some (i, a) => if a < eps then some (pts.eraseIdx i) else none
  | none => none

theorem vwCandidates_bound {pts : List Coord} {c : ℕ × ℚ}
    (hc : c ∈ vwCandidates pts) : 1 ≤ c.1 ∧ c.1 + 1 < pts.length := by
  unfold vwCandidates at hc
  obtain ⟨i, _, hi⟩ := List.mem_filterMap.mp hc
  by_cases h : 1 ≤ i ∧ i + 1 < pts.length
  · rw [dif_pos h] at hi
    cases hi
    exact h
  · rw [dif_neg h] at hi
    cases hi

theorem vwMin_mem {pts : List Coord} {c : ℕ × ℚ} (h : vwMin pts = some c) :
    c ∈ vwCandidates pts := by
  unfold vwMin at h
  suffices hgen : ∀ (l : List (ℕ × ℚ)) (acc : Option (ℕ × ℚ)),
      (∀ m, acc = some m → m ∈ vwCandidates pts) → (∀ x ∈ l, x ∈ vwCandidates pts) →
      ∀ m, l.foldl
          (fun acc c =>
            match acc with
            | none => some c
            | some m => if c.2 < m.2 then some c else some m) acc = some m →
        m ∈ vwCandidates pts by
    exact hgen (vwCandidates pts) none (by intro m hm; cases hm) (fun x hx => hx) c h
  intro l
  induction l with
  | nil =>
      intro acc hacc _ m hm
      exact hacc m hm
  | cons x rest ih =>
      intro acc hacc hl m hm
      simp only [List.foldl_cons] at hm
      refine ih _ ?_ (fun y hy => hl y (by simp [hy])) m hm
      intro m' hm'
      cases acc with
      | none =>
          cases hm'
          exact hl x (by simp)
      | some a =>
          have hm'' : (if x.2 < a.2 then some x else some a) = some m' := hm'
          by_cases hlt : x.2 < a.2
          · rw [if_pos hlt] at hm''
            cases hm''
            exact hl x (by simp)
          · rw [if_neg hlt] at hm''
            cases hm''
            exact hacc _ rfl

theorem vwStep_length {eps : ℚ} {pts pts' : List Coord}
    (h : vwStep eps pts = some pts') : pts'.length < pts.length := by
  unfold vwStep at h
  cases hmin : vwMin pts with
  | none => rw [hmin] at h; cases h
  | some c =>
      obtain ⟨i, a⟩ := c
      rw [hmin] at h
      have h2 : (if a < eps then some (pts.eraseIdx i) else none) = some pts' := h
      have hb := vwCandidates_bound (vwMin_mem hmin)
      simp only at hb
      by_cases hlt : a < eps
      · rw [if_pos hlt] at h2
        cases h2
        rw [List.length_eraseIdx, if_pos (by omega : i < pts.length)]
        omega
      · rw [if_neg hlt] at h2
        cases h2

/-- Modelled from the spec: geo's `SimplifyVw` loop on one ring — repeatedly
remove the vertex of least effective area while that area is below ε
(first and last point pinned).  `fuel` bounds the number of removals; each
step removes one vertex, so `pts.length` steps always suffice
(`simplify_vw_go_fixpoint`). -/
def simplify_vw_go (eps : ℚ) : ℕ → List Coord → List Coord
  | 0, pts => pts
  | fuel + 1, pts =>
      match vwStep eps pts with
      | some pts' => simplify_vw_go eps fuel pts'
      | none => pts

/-- Modelled from the spec: geo's `SimplifyVw` on one ring. -/
def simplify_vw_ring (eps : ℚ) (pts : List Coord) : List Coord :=
  simplify_vw_go eps pts.length pts

/-- The fuel given by `simplify_vw_ring` is always enough: the result is a
fixpoint of the removal step, so the model agrees with geo's unbounded loop. -/
theorem simplify_vw_go_fixpoint (eps : ℚ) :
    ∀ (fuel : ℕ) (pts : List Coord), pts.length ≤ fuel →
      vwStep eps (simplify_vw_go eps fuel pts) = none := by
  intro fuel
  induction fuel with
  | zero =>
      intro pts hlen
      have hnil : pts = [] := List.length_eq_zero.mp (by omega)
      subst hnil
      rfl
  | succ fuel ih =>
      intro pts hlen
      rw [simplify_vw_go]
      cases hstep : vwStep eps pts with
      | some pts' =>
          have := vwStep_length hstep
          exact ih pts' (by omega)
      | none => exact hstep

/-- Modelled from the spec: geo's `SimplifyVw` on a polygon — simplify the
exterior and every interior ring. -/
def Polygon.simplify_vw (eps : ℚ) (p : Polygon) : Polygon :=
  ⟨simplify_vw_ring eps p.exterior, p.interiors.map (simplify_vw_ring eps)⟩

/-- The recursive body of `PolygonStore::process_forests`, producing the list
of `(zoom, polygon)` records it sends: clamp the zoom into
`[POLYGON_MERGE_ZOOM_LEVEL, ZOOM_LEVELS]`, run the phases A-C aggregate when
merging is enabled, keep every polygon with `unsigned_area ≥ 3e-6·(zlf−2)²`,
simplify it with VW ε `3e-7·(zlf−2)²`, emit, and recurse into the next zoom
with the emitted set while `zoom + 1 < ZOOM_LEVELS`.  `fuel` bounds the
recursion depth; the zoom strictly increases towards `ZOOM_LEVELS`, so
`ZOOM_LEVELS + 1` is always enough (`process_forests_go_congr`). -/
def process_forests_go (aggregate : List Polygon → List Polygon)
    (merge_enabled : Bool) :
    ℕ → List Polygon → ℕ → List (ℕ × Polygon)
  | 0, _, _ => []
  | fuel + 1, forest_polygons, zoom_level =>
      let zl := min (max zoom_level POLYGON_MERGE_ZOOM_LEVEL) ZOOM_LEVELS
      let zlf : ℚ := (zl : ℚ)
      let polys := if merge_enabled then aggregate forest_polygons else forest_polygons
      let all_geom := polys.filterMap fun poly =>
        if poly.unsigned_area < 0.000003 * (zlf - 2) * (zlf - 2) then none
        else some (poly.simplify_vw (0.0000003 * (zlf - 2) * (zlf - 2)))
      all_geom.map (fun geom => (zl, geom)) ++
        (if zl + 1 < ZOOM_LEVELS then
          process_forests_go aggregate merge_enabled fuel all_geom (zl + 1)
        else [])

/-- `PolygonStore::process_forests`. -/
def process_forests (aggregate : List Polygon → List Polygon) (merge_enabled : Bool)
    (forest_polygons : List Polygon) (zoom_level : ℕ) : List (ℕ × Polygon) :=
  process_forests_go aggregate merge_enabled (ZOOM_LEVELS + 1) forest_polygons zoom_level

/-- Any fuel exceeding the remaining zoom span gives the same result: the
recursion always stops at the zoom guard, never by fuel exhaustion. -/
theorem process_forests_go_congr (aggregate : List Polygon → List Polygon)
    (merge_enabled : Bool) :
    ∀ f₁ f₂ polys zoom, ZOOM_LEVELS - zoom < f₁ → ZOOM_LEVELS - zoom < f₂ →
      process_forests_go aggregate merge_enabled f₁ polys zoom =
        process_forests_go aggregate merge_enabled f₂ polys zoom := by
  intro f₁
  induction f₁ with
  | zero => intro f₂ polys zoom h₁ h₂; omega
  | succ f₁ ih =>
      intro f₂ polys zoom h₁ h₂
      cases f₂ with
      | zero => omega
      | succ f₂ =>
          simp only [process_forests_go]
          congr 1
          by_cases hrec :
              min (max zoom POLYGON_MERGE_ZOOM_LEVEL) ZOOM_LEVELS + 1 < ZOOM_LEVELS
          · rw [if_pos hrec, if_pos hrec]
            apply ih
            · simp only [ZOOM_LEVELS, POLYGON_MERGE_ZOOM_LEVEL] at *
              omega
            · simp only [ZOOM_LEVELS, POLYGON_MERGE_ZOOM_LEVEL] at *
              omega
          · rw [if_neg hrec, if_neg hrec]

theorem process_forests_go_area_floor (aggregate : List Polygon → List Polygon)
    (merge_enabled : Bool) :
    ∀ (fuel : ℕ) (forest_polygons : List Polygon) (zoom_level : ℕ) (zp : ℕ × Polygon),
      zp ∈ process_forests_go aggregate merge_enabled fuel forest_polygons zoom_level →
      ∃ q : Polygon,
        0.000003 * ((zp.1 : ℚ) - 2) * ((zp.1 : ℚ) - 2) ≤ q.unsigned_area ∧
        zp.2 = q.simplify_vw (0.0000003 * ((zp.1 : ℚ) - 2) * ((zp.1 : ℚ) - 2)) := by
  intro fuel
  induction fuel with
  | zero => intro polys zoom zp hmem; cases hmem
  | succ fuel ih =>
      intro polys zoom zp hmem
      simp only [process_forests_go] at hmem
      rcases List.mem_append.mp hmem with hemit | hrec
      · obtain ⟨geom, hgeom, heq⟩ := List.mem_map.mp hemit
        obtain ⟨q, _, hq⟩ := List.mem_filterMap.mp hgeom
        by_cases harea : q.unsigned_area <
            0.000003 *
                (((min (max zoom POLYGON_MERGE_ZOOM_LEVEL) ZOOM_LEVELS : ℕ) : ℚ) - 2) *
              (((min (max zoom POLYGON_MERGE_ZOOM_LEVEL) ZOOM_LEVELS : ℕ) : ℚ) - 2)
        · rw [if_pos harea] at hq
          cases hq
        · rw [if_neg harea] at hq
          refine ⟨q, ?_, ?_⟩
          · rw [← heq]
            simpa using le_of_not_lt harea
          · rw [← heq]
            simpa using hq.symm
      · split at hrec
        · exact ih _ _ zp hrec
        · cases hrec

/-- **C6 (amended).** Every polygon emitted by `process_forests` at zoom `z`
is the VW ε = 3e-7·(z−2)² simplification of a polygon whose area *before*
simplification was at least 3e-6·(z−2)²: the area floor is enforced before
the per-zoom simplification, not after it. -/
theorem process_forests_area_floor_before_simplify
    (aggregate : List Polygon → List Polygon) (merge_enabled : Bool)
    (forest_polygons : List Polygon) (zoom_level : ℕ) (zp : ℕ × Polygon)
    (hmem : zp ∈ process_forests aggregate merge_enabled forest_polygons zoom_level) :
    ∃ q : Polygon,
      0.000003 * ((zp.1 : ℚ) - 2) * ((zp.1 : ℚ) - 2) ≤ q.unsigned_area ∧
      zp.2 = q.simplify_vw (0.0000003 * ((zp.1 : ℚ) - 2) * ((zp.1 : ℚ) - 2)) :=
  process_forests_go_area_floor aggregate merge_enabled _ _ _ zp hmem

/-- A quadrilateral whose area passes the zoom-3 floor but whose bump vertex
is removed by the zoom-3 VW simplification, dropping the emitted area below
the floor. -/
def c6Quad : Polygon :=
  ⟨[⟨0, 0⟩, ⟨1/500, 0⟩, ⟨11/10000, 3/2000⟩, ⟨0, 29/10000⟩, ⟨0, 0⟩], []⟩

/-- The triangle that the zoom-3 simplification leaves of `c6Quad`. -/
def c6Tri : Polygon :=
  ⟨[⟨0, 0⟩, ⟨1/500, 0⟩, ⟨0, 29/10000⟩, ⟨0, 0⟩], []⟩

theorem c6_simplify_eval :
    c6Quad.simplify_vw (0.0000003 * ((3 : ℚ) - 2) * ((3 : ℚ) - 2)) = c6Tri := by
  norm_num [c6Quad, c6Tri, Polygon.simplify_vw, simplify_vw_ring, simplify_vw_go,
    vwStep, vwMin, vwCandidates, triArea, List.range_succ, List.filterMap, List.foldl,
    List.eraseIdx, abs_of_nonneg, Coord.mk.injEq]

theorem c6_membership :
    (3, c6Tri) ∈ process_forests id false [c6Quad] 3 := by
  have hmm : (min (max 3 POLYGON_MERGE_ZOOM_LEVEL) ZOOM_LEVELS : ℕ) = 3 := rfl
  rw [process_forests]
  rw [show ZOOM_LEVELS + 1 = 19 from rfl]
  rw [process_forests_go]
  apply List.mem_append_left
  have hfilter : ([c6Quad].filterMap fun poly =>
      if poly.unsigned_area <
          0.000003 * (((min (max 3 POLYGON_MERGE_ZOOM_LEVEL) ZOOM_LEVELS : ℕ) : ℚ) - 2) *
            (((min (max 3 POLYGON_MERGE_ZOOM_LEVEL) ZOOM_LEVELS : ℕ) : ℚ) - 2) then none
      else some (poly.simplify_vw
        (0.0000003 * (((min (max 3 POLYGON_MERGE_ZOOM_LEVEL) ZOOM_LEVELS : ℕ) : ℚ) - 2) *
          (((min (max 3 POLYGON_MERGE_ZOOM_LEVEL) ZOOM_LEVELS : ℕ) : ℚ) - 2)))) =
      [c6Tri] := by
    rw [hmm]
    have harea : ¬ c6Quad.unsigned_area < 0.000003 * (((3 : ℕ) : ℚ) - 2) * (((3 : ℕ) : ℚ) - 2) := by
      norm_num [c6Quad, Polygon.unsigned_area, Polygon.signed_area, twiceSignedRingArea]
      rw [abs_of_nonneg (by norm_num)]
      norm_num
    simp only [List.filterMap, if_neg harea]
    have := c6_simplify_eval
    norm_num at this ⊢
    exact this
  simp only [id_eq, if_neg, Bool.false_eq_true, if_false] at *
  rw [hfilter]
  simp [hmm]

/-- Counterexample to C6 as stated: at zoom 3 (floor 3e-6·(3−2)² = 3e-6),
`process_forests` emits a polygon of area 2.9e-6 < 3e-6 — the simplification
applied after the area filter shrank the polygon below the floor. -/
theorem process_forests_area_floor_counterexample :
    (3, c6Tri) ∈ process_forests id false [c6Quad] 3 ∧
      c6Tri.unsigned_area < 0.000003 * (((3, c6Tri).1 : ℚ) - 2) * (((3, c6Tri).1 : ℚ) - 2) := by
  refine ⟨c6_membership, ?_⟩
  norm_num [c6Tri, Polygon.unsigned_area, Polygon.signed_area, twiceSignedRingArea]
  rw [abs_of_nonneg (by norm_num)]
  norm_num

/-- Witness for the amended C6 theorem at the concrete counterexample input. -/
theorem process_forests_area_floor_before_simplify_witness :
    ∃ q : Polygon,
      0.000003 * (((3, c6Tri).1 : ℚ) - 2) * (((3, c6Tri).1 : ℚ) - 2) ≤ q.unsigned_area ∧
      (3, c6Tri).2 = q.simplify_vw
        (0.0000003 * (((3, c6Tri).1 : ℚ) - 2) * (((3, c6Tri).1 : ℚ) - 2)) :=
  process_forests_area_floor_before_simplify id false [c6Quad] 3 (3, c6Tri) c6_membership

/-! ## Association-list model of `FxHashMap`
(used by `WayStore::merge_ways` and `OsmRoadGraph`): first-match lookup,
first-match removal, replace-or-append insertion. -/

/-- Hash-map lookup. -/
def alookup {κ ν : Type} [DecidableEq κ] : List (κ × ν) → κ → Option ν
  | [], _ => none
  | e :: rest, k => if e.1 = k then some e.2 else alookup rest k

/-- Hash-map `remove` (drops the entry with the key, when present). -/
def aremove {κ ν : Type} [DecidableEq κ] : List (κ × ν) → κ → List (κ × ν)
  | [], _ => []
  | e :: rest, k => if e.1 = k then rest else e :: aremove rest k

/-- Hash-map `insert` (replaces the entry at the key, or appends). -/
def ainsert {κ ν : Type} [DecidableEq κ] : List (κ × ν) → κ → ν → List (κ × ν)
  | [], k, v => [(k, v)]
  | e :: rest, k, v => if e.1 = k then (k, v) :: rest else e :: ainsert rest k v

section AssocLemmas

variable {κ ν : Type} [DecidableEq κ]

theorem alookup_mem {m : List (κ × ν)} {k : κ} {v : ν} (h : alookup m k = some v) :
    (k, v) ∈ m := by
  induction m with
  | nil => cases h
  | cons e rest ih =>
      rw [alookup] at h
      by_cases he : e.1 = k
      · rw [if_pos he] at h
        cases h
        subst he
        exact List.mem_cons_self _ _
      · rw [if_neg he] at h
        exact List.mem_cons_of_mem _ (ih h)

theorem mem_alookup {m : List (κ × ν)} (hnd : (m.map Prod.fst).Nodup) {k : κ} {v : ν}
    (h : (k, v) ∈ m) : alookup m k = some v := by
  induction m with
  | nil => cases h
  | cons e rest ih =>
      simp only [List.map_cons, List.nodup_cons] at hnd
      rcases List.mem_cons.mp h with he | hrest
      · subst he
        rw [alookup, if_pos rfl]
      · rw [alookup]
        by_cases hek : e.1 = k
        · exfalso
          exact hnd.1 (hek ▸ List.mem_map.mpr ⟨(k, v), hrest, rfl⟩)
        · rw [if_neg hek]
          exact ih hnd.2 hrest

theorem alookup_eq_none {m : List (κ × ν)} {k : κ} (h : alookup m k = none) :
    ∀ e ∈ m, e.1 ≠ k := by
  induction m with
  | nil => intro e he; cases he
  | cons e rest ih =>
      rw [alookup] at h
      by_cases he : e.1 = k
      · rw [if_pos he] at h; cases h
      · rw [if_neg he] at h
        intro e' he'
        rcases List.mem_cons.mp he' with h1 | h2
        · subst h1; exact he
        · exact ih h e' h2

theorem aremove_sublist (m : List (κ × ν)) (k : κ) : (aremove m k).Sublist m := by
  induction m with
  | nil => simp [aremove]
  | cons e rest ih =>
      rw [aremove]
      by_cases he : e.1 = k
      · rw [if_pos he]
        exact (List.sublist_cons_self e rest)
      · rw [if_neg he]
        exact ih.cons₂ e

theorem mem_aremove_of_ne {m : List (κ × ν)} {k : κ} {e : κ × ν} (hmem : e ∈ m)
    (hne : e.1 ≠ k) : e ∈ aremove m k := by
  induction m with
  | nil => cases hmem
  | cons e' rest ih =>
      rw [aremove]
      rcases List.mem_cons.mp hmem with h1 | h2
      · subst h1
        rw [if_neg hne]
        exact List.mem_cons_self _ _
      · by_cases he' : e'.1 = k
        · rw [if_pos he']
          exact h2
        · rw [if_neg he']
          exact List.mem_cons_of_mem _ (ih h2)

theorem alookup_aremove_ne {m : List (κ × ν)} {k k' : κ} (hne : k ≠ k') :
    alookup (aremove m k) k' = alookup m k' := by
  induction m with
  | nil => rfl
  | cons e rest ih =>
      rw [aremove]
      by_cases he : e.1 = k
      · rw [if_pos he, alookup, if_neg (by rw [he]; exact hne)]
      · rw [if_neg he, alookup, alookup]
        by_cases he' : e.1 = k'
        · rw [if_pos he', if_pos he']
        · rw [if_neg he', if_neg he', ih]

theorem aremove_length_le (m : List (κ × ν)) (k : κ) :
    (aremove m k).length ≤ m.length :=
  (aremove_sublist m k).length_le

theorem aremove_length_lt {m : List (κ × ν)} {k : κ} {v : ν}
    (h : alookup m k = some v) : (aremove m k).length < m.length := by
  induction m with
  | nil => cases h
  | cons e rest ih =>
      rw [alookup] at h
      rw [aremove]
      by_cases he : e.1 = k
      · rw [if_pos he]
        simp
      · rw [if_neg he] at h ⊢
        simpa using ih h

theorem nodup_aremove {m : List (κ × ν)} (hnd : (m.map Prod.fst).Nodup) (k : κ) :
    ((aremove m k).map Prod.fst).Nodup :=
  ((aremove_sublist m k).map Prod.fst).nodup hnd

theorem alookup_ainsert_self (m : List (κ × ν)) (k : κ) (v : ν) :
    alookup (ainsert m k v) k = some v := by
  induction m with
  | nil => simp [ainsert, alookup]
  | cons e rest ih =>
      rw [ainsert]
      by_cases he : e.1 = k
      · rw [if_pos he, alookup, if_pos rfl]
      · rw [if_neg he, alookup, if_neg he, ih]

theorem alookup_ainsert_ne (m : List (κ × ν)) {k k' : κ} (hne : k ≠ k') (v : ν) :
    alookup (ainsert m k v) k' = alookup m k' := by
  induction m with
  | nil => simp [ainsert, alookup, hne]
  | cons e rest ih =>
      rw [ainsert]
      by_cases he : e.1 = k
      · rw [if_pos he, alookup, alookup, if_neg hne, if_neg (he ▸ hne)]
      · rw [if_neg he, alookup, alookup]
        by_cases he' : e.1 = k'
        · rw [if_pos he', if_pos he']
        · rw [if_neg he', if_neg he', ih]

theorem mem_ainsert {m : List (κ × ν)} {k : κ} {v : ν} {e : κ × ν}
    (h : e ∈ ainsert m k v) : e = (k, v) ∨ e ∈ m := by
  induction m with
  | nil => simpa [ainsert] using h
  | cons e' rest ih =>
      rw [ainsert] at h
      by_cases he' : e'.1 = k
      · rw [if_pos he'] at h
        rcases List.mem_cons.mp h with h1 | h2
        · exact Or.inl h1
        · exact Or.inr (List.mem_cons_of_mem _ h2)
      · rw [if_neg he'] at h
        rcases List.mem_cons.mp h with h1 | h2
        · exact Or.inr (h1 ▸ List.mem_cons_self _ _)
        · rcases ih h2 with h3 | h3
          · exact Or.inl h3
          · exact Or.inr (List.mem_cons_of_mem _ h3)

theorem nodup_ainsert {m : List (κ × ν)} (hnd : (m.map Prod.fst).Nodup) (k : κ) (v : ν) :
    ((ainsert m k v).map Prod.fst).Nodup := by
  induction m with
  | nil => simp [ainsert]
  | cons e rest ih =>
      simp only [List.map_cons, List.nodup_cons] at hnd
      rw [ainsert]
      by_cases he : e.1 = k
      · simp only [if_pos he, List.map_cons, List.nodup_cons]
        exact ⟨by rw [← he]; exact hnd.1, hnd.2⟩
      · simp only [if_neg he, List.map_cons, List.nodup_cons]
        constructor
        · intro hmem
          rcases List.mem_map.mp hmem with ⟨e', he', heq⟩
          rcases mem_ainsert he' with h1 | h1
          · rw [h1] at heq
            exact he heq.symm
          · exact hnd.1 (heq ▸ List.mem_map.mpr ⟨e', h1, rfl⟩)
        · exact ih hnd.2

end AssocLemmas

/-! ## C7: `WayStore::merge_ways`
(`src/osm_tool/src/way_store.rs` lines 301-394).

The `FxHashMap<PathNodeKey, PathNode>` is modelled as an association list
with unique keys (`alookup`/`aremove`/`ainsert` above).  The final drain
(`into_values().unique_by(id)`) iterates the hash map in an unspecified
order and does not affect the map invariant, so it is not modelled. -/

/-- `WayStoreItem` from `way_store.rs` lines 10-17. -/
structure WayStoreItem where
  f_id : ℤ
  l_id : ℤ
  way_id : ℤ
  line : List Coord
  info : WayInfo
deriving DecidableEq, Repr

/-- `PathNodeKey` from `way_store.rs` lines 25-29. -/
structure PathNodeKey where
  id : ℤ
  info : WayInfo
deriving DecidableEq, Repr

/-- `PathNode` from `way_store.rs` lines 31-36. -/
structure PathNode where
  f_id : ℤ
  l_id : ℤ
  data : MapGeomObject × List Coord
deriving DecidableEq, Repr

/-- The merged hash map of `merge_ways`. -/
abbrev MergedMap := List (PathNodeKey × PathNode)

/-- The inner `loop` of `merge_ways`: repeatedly pull out a chain sharing an
endpoint with the current path (trying `key1` first, then `key2`), remove the
chain's entry at its other endpoint too, splice the chain onto the path
(reversed in front at `key1`, forward at the back at `key2`) and slide the
key to the chain's far endpoint; stop when neither key is present.  Every
iteration removes at least one map entry, so the `fuel` given by `mergeLoop`
always reaches the `break` (`mergeLoopGo_congr`). -/
def mergeLoopGo (info : WayInfo) :
    ℕ → MergedMap → ℤ → ℤ → List Coord → MergedMap × ℤ × ℤ × List Coord
  | 0, m, k1, k2, path => (m, k1, k2, path)
  | fuel + 1, m, k1, k2, path =>
      match alookup m ⟨k1, info⟩ with
      | some node =>
          mergeLoopGo info fuel
            (aremove (aremove m ⟨k1, info⟩)
              ⟨if node.f_id = k1 then node.l_id else node.f_id, info⟩)
            (if node.f_id = k1 then node.l_id else node.f_id) k2
            (node.data.2.reverse ++ path)
      | none =>
          match alookup m ⟨k2, info⟩ with
          | some node =>
              mergeLoopGo info fuel
                (aremove (aremove m ⟨k2, info⟩)
                  ⟨if node.f_id = k2 then node.l_id else node.f_id, info⟩)
                k1 (if node.f_id = k2 then node.l_id else node.f_id)
                (path ++ node.data.2)
          | none => (m, k1, k2, path)

/-- The inner `loop` of `merge_ways`. -/
def mergeLoop (info : WayInfo) (m : MergedMap) (k1 k2 : ℤ) (path : List Coord) :
    MergedMap × ℤ × ℤ × List Coord :=
  mergeLoopGo info (m.length + 1) m k1 k2 path

/-- Any fuel exceeding the map size gives the same result: the loop always
ends at its `break`, never by fuel exhaustion. -/
theorem mergeLoopGo_congr (info : WayInfo) :
    ∀ f₁ f₂ m k1 k2 path, m.length < f₁ → m.length < f₂ →
      mergeLoopGo info f₁ m k1 k2 path = mergeLoopGo info f₂ m k1 k2 path := by
  intro f₁
  induction f₁ with
  | zero => intro f₂ m k1 k2 path h₁ h₂; omega
  | succ f₁ ih =>
      intro f₂ m k1 k2 path h₁ h₂
      cases f₂ with
      | zero => omega
      | succ f₂ =>
          simp only [mergeLoopGo]
          cases hl1 : alookup m ⟨k1, info⟩ with
          | some node =>
              apply ih
              · have ha := aremove_length_lt hl1
                have hb := aremove_length_le (aremove m ⟨k1, info⟩)
                  (⟨if node.f_id = k1 then node.l_id else node.f_id, info⟩ : PathNodeKey)
                omega
              · have ha := aremove_length_lt hl1
                have hb := aremove_length_le (aremove m ⟨k1, info⟩)
                  (⟨if node.f_id = k1 then node.l_id else node.f_id, info⟩ : PathNodeKey)
                omega
          | none =>
              cases hl2 : alookup m ⟨k2, info⟩ with
              | some node =>
                  apply ih
                  · have ha := aremove_length_lt hl2
                    have hb := aremove_length_le (aremove m ⟨k2, info⟩)
                      (⟨if node.f_id = k2 then node.l_id else node.f_id, info⟩ : PathNodeKey)
                    omega
                  · have ha := aremove_length_lt hl2
                    have hb := aremove_length_le (aremove m ⟨k2, info⟩)
                      (⟨if node.f_id = k2 then node.l_id else node.f_id, info⟩ : PathNodeKey)
                    omega
              | none => rfl

/-- One iteration of the `for item in items` loop of `merge_ways`: excluded
line kinds go to the excluded bucket; every other item is merged through the
loop and the resulting chain is inserted under both of its endpoint keys
(reversed copy at `key2`, forward copy at `key1`). -/
def merge_ways_step (exclude : List LineKind)
    (acc : List (MapGeomObject × List Coord) × MergedMap) (item : WayStoreItem) :
    List (MapGeomObject × List Coord) × MergedMap :=
  let map_geom_obj : MapGeomObject := ⟨item.way_id, .Way item.info⟩
  if item.info.line_kind ∈ exclude then
    (acc.1 ++ [(map_geom_obj, item.line)], acc.2)
  else
    let r := mergeLoop item.info acc.2 item.f_id item.l_id item.line
    let m := ainsert r.1 ⟨r.2.2.1, item.info⟩
      ⟨r.2.2.1, r.2.1, (map_geom_obj, r.2.2.2.reverse)⟩
    let m := ainsert m ⟨r.2.1, item.info⟩
      ⟨r.2.1, r.2.2.1, (map_geom_obj, r.2.2.2)⟩
    (acc.1, m)

/-- The accumulation phase of `merge_ways`: the excluded bucket and the
merged map after all items have been processed. -/
def merge_ways_map (items : List WayStoreItem) (exclude : List LineKind) :
    List (MapGeomObject × List Coord) × MergedMap :=
  items.foldl (merge_ways_step exclude) ([], [])

/-- The map invariant maintained by `merge_ways`: keys are unique, every
entry is keyed by its node's `f_id`, and every node whose endpoints differ
has its partner entry at `(l_id, info)` holding the same object and the
reversed line.  (A chain whose endpoints coincide occupies a single entry:
both of its keys are the same.) -/
def NodeInv (m : MergedMap) : Prop :=
  (m.map Prod.fst).Nodup ∧
  ∀ e ∈ m, e.1.id = e.2.f_id ∧
    (e.2.f_id ≠ e.2.l_id →
      alookup m ⟨e.2.l_id, e.1.info⟩ =
        some ⟨e.2.l_id, e.2.f_id, (e.2.data.1, e.2.data.2.reverse)⟩)

theorem aremove_not_mem_self {m : MergedMap} (hnd : (m.map Prod.fst).Nodup)
    (k : PathNodeKey) (v : PathNode) : (k, v) ∉ aremove m k := by
  induction m with
  | nil => simp [aremove]
  | cons e rest ih =>
      simp only [List.map_cons, List.nodup_cons] at hnd
      rw [aremove]
      by_cases he : e.1 = k
      · rw [if_pos he]
        intro hmem
        exact hnd.1 (he ▸ List.mem_map.mpr ⟨(k, v), hmem, rfl⟩)
      · rw [if_neg he]
        intro hmem
        rcases List.mem_cons.mp hmem with h1 | h2
        · exact he (by rw [← h1])
        · exact ih hnd.2 h2

theorem alookup_aremove_self {m : MergedMap} (hnd : (m.map Prod.fst).Nodup)
    (k : PathNodeKey) : alookup (aremove m k) k = none := by
  cases hh : alookup (aremove m k) k with
  | none => rfl
  | some w => exact absurd (alookup_mem hh) (aremove_not_mem_self hnd k w)

theorem NodeInv_remove_pair {m : MergedMap} (hinv : NodeInv m) {kid : ℤ}
    {info : WayInfo} {node : PathNode} (hlook : alookup m ⟨kid, info⟩ = some node) :
    NodeInv (aremove (aremove m ⟨kid, info⟩)
      ⟨if node.f_id = kid then node.l_id else node.f_id, info⟩) := by
  obtain ⟨hnd, hprop⟩ := hinv
  have hmem : (⟨kid, info⟩, node) ∈ m := alookup_mem hlook
  have hfid : kid = node.f_id := (hprop _ hmem).1
  have hif : (if node.f_id = kid then node.l_id else node.f_id) = node.l_id :=
    if_pos hfid.symm
  rw [hif]
  have hnd1 : ((aremove m ⟨kid, info⟩).map Prod.fst).Nodup := nodup_aremove hnd _
  refine ⟨nodup_aremove hnd1 _, ?_⟩
  intro e he
  have he1 : e ∈ aremove m ⟨kid, info⟩ := (aremove_sublist _ _).mem he
  have he0 : e ∈ m := (aremove_sublist _ _).mem he1
  refine ⟨(hprop e he0).1, ?_⟩
  intro hfl
  have heid : e.1 = ⟨e.2.f_id, e.1.info⟩ := by
    have hh := (hprop e he0).1
    cases he1 : e.1 with
    | mk a b =>
        rw [he1] at hh
        simp only at hh
        rw [hh]
  have hne_k1 : e.1 ≠ ⟨kid, info⟩ :=
    alookup_eq_none (alookup_aremove_self hnd _) e he1
  have hne_k2 : e.1 ≠ ⟨node.l_id, info⟩ :=
    alookup_eq_none (alookup_aremove_self hnd1 _) e he
  have hpartner := (hprop e he0).2 hfl
  have hpk1 : (⟨e.2.l_id, e.1.info⟩ : PathNodeKey) ≠ ⟨kid, info⟩ := by
    intro heq
    rw [heq, hlook] at hpartner
    have hnode := Option.some.inj hpartner
    simp only [PathNodeKey.mk.injEq] at heq
    apply hne_k2
    rw [heid]
    simp only [PathNodeKey.mk.injEq]
    exact ⟨by rw [hnode], heq.2⟩
  have hpk2 : (⟨e.2.l_id, e.1.info⟩ : PathNodeKey) ≠ ⟨node.l_id, info⟩ := by
    intro heq
    by_cases hnfl : node.f_id = node.l_id
    · apply hpk1
      rw [heq]
      rw [← hnfl, ← hfid]
    · have hp2 := (hprop _ hmem).2 hnfl
      simp only at hp2
      rw [heq, hp2] at hpartner
      have hinj := Option.some.inj hpartner
      simp only [PathNode.mk.injEq] at hinj
      simp only [PathNodeKey.mk.injEq] at heq
      apply hne_k1
      rw [heid]
      simp only [PathNodeKey.mk.injEq]
      exact ⟨by rw [← hinj.2.1, ← hfid], heq.2⟩
  rw [alookup_aremove_ne (Ne.symm hpk2), alookup_aremove_ne (Ne.symm hpk1)]
  exact hpartner

theorem mergeLoopGo_spec (info : WayInfo) :
    ∀ (fuel : ℕ) (m : MergedMap) (k1 k2 : ℤ) (path : List Coord),
      m.length < fuel → NodeInv m →
      NodeInv (mergeLoopGo info fuel m k1 k2 path).1 ∧
      alookup (mergeLoopGo info fuel m k1 k2 path).1
        ⟨(mergeLoopGo info fuel m k1 k2 path).2.1, info⟩ = none ∧
      alookup (mergeLoopGo info fuel m k1 k2 path).1
        ⟨(mergeLoopGo info fuel m k1 k2 path).2.2.1, info⟩ = none := by
  intro fuel
  induction fuel with
  | zero => intro m k1 k2 path hlen; omega
  | succ fuel ih =>
      intro m k1 k2 path hlen hinv
      simp only [mergeLoopGo]
      cases hl1 : alookup m ⟨k1, info⟩ with
      | some node =>
          apply ih
          · have ha := aremove_length_lt hl1
            have hb := aremove_length_le (aremove m ⟨k1, info⟩)
              (⟨if node.f_id = k1 then node.l_id else node.f_id, info⟩ : PathNodeKey)
            omega
          · exact NodeInv_remove_pair hinv hl1
      | none =>
          cases hl2 : alookup m ⟨k2, info⟩ with
          | some node =>
              apply ih
              · have ha := aremove_length_lt hl2
                have hb := aremove_length_le (aremove m ⟨k2, info⟩)
                  (⟨if node.f_id = k2 then node.l_id else node.f_id, info⟩ : PathNodeKey)
                omega
              · exact NodeInv_remove_pair hinv hl2
          | none => exact ⟨hinv, hl1, hl2⟩

theorem mergeLoop_spec (info : WayInfo) (m : MergedMap) (k1 k2 : ℤ)
    (path : List Coord) (hinv : NodeInv m) :
    NodeInv (mergeLoop info m k1 k2 path).1 ∧
    alookup (mergeLoop info m k1 k2 path).1
      ⟨(mergeLoop info m k1 k2 path).2.1, info⟩ = none ∧
    alookup (mergeLoop info m k1 k2 path).1
      ⟨(mergeLoop info m k1 k2 path).2.2.1, info⟩ = none :=
  mergeLoopGo_spec info (m.length + 1) m k1 k2 path (by omega) hinv

theorem NodeInv_insert_pair {m : MergedMap} (hinv : NodeInv m) {k1 k2 : ℤ}
    {info : WayInfo} {obj : MapGeomObject} {path : List Coord}
    (h1 : alookup m ⟨k1, info⟩ = none) (h2 : alookup m ⟨k2, info⟩ = none) :
    NodeInv (ainsert (ainsert m ⟨k2, info⟩ ⟨k2, k1, (obj, path.reverse)⟩)
      ⟨k1, info⟩ ⟨k1, k2, (obj, path)⟩) := by
  obtain ⟨hnd, hprop⟩ := hinv
  refine ⟨nodup_ainsert (nodup_ainsert hnd _ _) _ _, ?_⟩
  intro e he
  rcases mem_ainsert he with he' | he'
  · -- the entry at key1
    subst he'
    refine ⟨rfl, ?_⟩
    intro hfl
    simp only at hfl ⊢
    rw [alookup_ainsert_ne _ (by simp [PathNodeKey.mk.injEq]; intro hh; exact hfl hh) _,
      alookup_ainsert_self]
  · rcases mem_ainsert he' with he'' | he''
    · -- the entry at key2
      subst he''
      refine ⟨rfl, ?_⟩
      intro hfl
      simp only at hfl ⊢
      rw [alookup_ainsert_self]
      simp [List.reverse_reverse]
    · -- a pre-existing entry
      refine ⟨(hprop e he'').1, ?_⟩
      intro hfl
      have hpartner := (hprop e he'').2 hfl
      have hpk1 : (⟨e.2.l_id, e.1.info⟩ : PathNodeKey) ≠ ⟨k1, info⟩ := by
        intro heq
        rw [heq, h1] at hpartner
        cases hpartner
      have hpk2 : (⟨e.2.l_id, e.1.info⟩ : PathNodeKey) ≠ ⟨k2, info⟩ := by
        intro heq
        rw [heq, h2] at hpartner
        cases hpartner
      rw [alookup_ainsert_ne _ (Ne.symm hpk1) _, alookup_ainsert_ne _ (Ne.symm hpk2) _]
      exact hpartner

theorem merge_ways_step_inv (exclude : List LineKind)
    (acc : List (MapGeomObject × List Coord) × MergedMap) (item : WayStoreItem)
    (hinv : NodeInv acc.2) : NodeInv (merge_ways_step exclude acc item).2 := by
  rw [merge_ways_step]
  by_cases hexc : item.info.line_kind ∈ exclude
  · rw [if_pos hexc]
    exact hinv
  · rw [if_neg hexc]
    obtain ⟨hinv', hn1, hn2⟩ :=
      mergeLoop_spec item.info acc.2 item.f_id item.l_id item.line hinv
    exact NodeInv_insert_pair hinv' hn1 hn2

/-- The map built by `merge_ways` always satisfies the endpoint-pairing
invariant. -/
theorem merge_ways_map_inv (items : List WayStoreItem) (exclude : List LineKind) :
    NodeInv (merge_ways_map items exclude).2 := by
  rw [merge_ways_map]
  suffices hgen : ∀ acc, NodeInv acc.2 →
      NodeInv (items.foldl (merge_ways_step exclude) acc).2 by
    exact hgen ([], []) ⟨List.nodup_nil, by intro e he; cases he⟩
  induction items with
  | nil => intro acc h; exact h
  | cons item rest ih =>
      intro acc h
      rw [List.foldl_cons]
      exact ih _ (merge_ways_step_inv exclude acc item h)

theorem filter_key_length_one {m : MergedMap} (hnd : (m.map Prod.fst).Nodup)
    {k : PathNodeKey} {v : PathNode} (h : alookup m k = some v) :
    (m.filter fun e => decide (e.1 = k)).length = 1 := by
  induction m with
  | nil => cases h
  | cons e rest ih =>
      simp only [List.map_cons, List.nodup_cons] at hnd
      rw [alookup] at h
      by_cases he : e.1 = k
      · rw [if_pos he] at h
        have hrest : (rest.filter fun e => decide (e.1 = k)).length = 0 := by
          rw [List.length_eq_zero, List.filter_eq_nil]
          intro a ha
          simp only [decide_eq_true_eq]
          intro hak
          exact hnd.1 (he ▸ hak ▸ List.mem_map.mpr ⟨a, ha, rfl⟩)
        simp [List.filter_cons, he, hrest]
      · rw [if_neg he] at h
        simp [List.filter_cons, he, ih hnd.2 h]

theorem filter_key_length_zero {m : MergedMap} {k : PathNodeKey}
    (h : alookup m k = none) :
    (m.filter fun e => decide (e.1 = k)).length = 0 := by
  rw [List.length_eq_zero, List.filter_eq_nil]
  intro a ha
  simp only [decide_eq_true_eq]
  intro hak
  exact alookup_eq_none h a ha hak

theorem filter_two_keys_length {m : MergedMap} {a b : PathNodeKey} (hab : a ≠ b) :
    (m.filter fun e => decide (e.1 = a ∨ e.1 = b)).length =
      (m.filter fun e => decide (e.1 = a)).length +
        (m.filter fun e => decide (e.1 = b)).length := by
  induction m with
  | nil => rfl
  | cons e rest ih =>
      rw [List.filter_cons, List.filter_cons, List.filter_cons]
      by_cases hea : e.1 = a
      · have hnb : ¬ e.1 = b := fun hh => hab (hea.symm.trans hh)
        rw [if_pos (by simp [hea]), if_pos (by simp [hea]), if_neg (by simp [hnb])]
        simp only [List.length_cons]
        rw [ih]
        omega
      · by_cases heb : e.1 = b
        · rw [if_pos (by simp [heb]), if_neg (by simp [hea]), if_pos (by simp [heb])]
          simp only [List.length_cons]
          rw [ih]
          omega
        · rw [if_neg (by simp [hea, heb]), if_neg (by simp [hea]), if_neg (by simp [heb])]
          exact ih

/-- **C7 (amended).** In the map built by `merge_ways`, every stored
`PathNode` whose two endpoint ids differ has exactly two map entries keyed by
its endpoints — `(f_id, info)` and `(l_id, info)` — while a closed chain
(`f_id = l_id`) has exactly one entry, its two endpoint keys coinciding; the
pairing (and the matching removal of both keys inside the merge loop) is the
`NodeInv` invariant established by `merge_ways_map_inv`. -/
theorem merge_ways_entry_count (items : List WayStoreItem) (exclude : List LineKind)
    (e : PathNodeKey × PathNode) (hmem : e ∈ (merge_ways_map items exclude).2) :
    ((merge_ways_map items exclude).2.filter fun e' =>
        decide (e'.1 = PathNodeKey.mk e.2.f_id e.1.info ∨
          e'.1 = PathNodeKey.mk e.2.l_id e.1.info)).length =
      if e.2.f_id = e.2.l_id then 1 else 2 := by
  obtain ⟨hnd, hprop⟩ := merge_ways_map_inv items exclude
  have hid := (hprop e hmem).1
  have heid : e.1 = ⟨e.2.f_id, e.1.info⟩ := by
    cases he1 : e.1 with
    | mk a b =>
        rw [he1] at hid
        simp only at hid
        rw [hid]
  have hself : alookup (merge_ways_map items exclude).2 ⟨e.2.f_id, e.1.info⟩ =
      some e.2 := by
    rw [← heid]
    exact mem_alookup hnd (by cases e; exact hmem)
  by_cases hfl : e.2.f_id = e.2.l_id
  · rw [if_pos hfl]
    have hcongr : ((merge_ways_map items exclude).2.filter fun e' =>
        decide (e'.1 = PathNodeKey.mk e.2.f_id e.1.info ∨
          e'.1 = PathNodeKey.mk e.2.l_id e.1.info)) =
        ((merge_ways_map items exclude).2.filter fun e' =>
          decide (e'.1 = PathNodeKey.mk e.2.f_id e.1.info)) := by
      apply List.filter_congr
      intro x _
      rw [← hfl]
      simp
    rw [hcongr]
    exact filter_key_length_one hnd hself
  · rw [if_neg hfl]
    have hpartner := (hprop e hmem).2 hfl
    have hkeys : (⟨e.2.f_id, e.1.info⟩ : PathNodeKey) ≠ ⟨e.2.l_id, e.1.info⟩ := by
      intro hh
      simp only [PathNodeKey.mk.injEq] at hh
      exact hfl hh.1
    rw [filter_two_keys_length hkeys, filter_key_length_one hnd hself,
      filter_key_length_one hnd hpartner]

/-- A closed way: both endpoint node ids are 5. -/
def c7Item : WayStoreItem :=
  ⟨5, 5, 1, [⟨0, 0⟩, ⟨1, 1⟩, ⟨0, 0⟩], ⟨LineKind.Highway .Primary, 0, .None, Option.none⟩⟩

theorem c7_map_eval :
    (merge_ways_map [c7Item] [LineKind.Highway .Footway]).2 =
      [(⟨5, ⟨LineKind.Highway .Primary, 0, .None, Option.none⟩⟩,
        ⟨5, 5, (⟨1, .Way ⟨LineKind.Highway .Primary, 0, .None, Option.none⟩⟩,
          [⟨0, 0⟩, ⟨1, 1⟩, ⟨0, 0⟩])⟩)] := by
  rfl

/-- Counterexample to C7 as stated: after merging a single closed way (both
endpoint ids 5), its `PathNode` has exactly one map entry, not two — the two
endpoint keys coincide and the second insertion overwrites the first. -/
theorem merge_ways_two_entries_counterexample :
    ¬ ∀ e ∈ (merge_ways_map [c7Item] [LineKind.Highway .Footway]).2,
        ((merge_ways_map [c7Item] [LineKind.Highway .Footway]).2.filter fun e' =>
            decide (e'.1 = PathNodeKey.mk e.2.f_id e.1.info ∨
              e'.1 = PathNodeKey.mk e.2.l_id e.1.info)).length = 2 := by
  intro h
  have := h (⟨5, ⟨LineKind.Highway .Primary, 0, .None, Option.none⟩⟩,
      ⟨5, 5, (⟨1, .Way ⟨LineKind.Highway .Primary, 0, .None, Option.none⟩⟩,
        [⟨0, 0⟩, ⟨1, 1⟩, ⟨0, 0⟩])⟩)
    (by rw [c7_map_eval]; exact List.mem_singleton.mpr rfl)
  rw [c7_map_eval] at this
  simp at this

/-- Witness for the amended C7 theorem: the closed way's node has exactly one
entry. -/
theorem merge_ways_entry_count_witness :
    ((merge_ways_map [c7Item] [LineKind.Highway .Footway]).2.filter fun e' =>
        decide (e'.1 = PathNodeKey.mk (5 : ℤ)
            ⟨LineKind.Highway .Primary, 0, .None, Option.none⟩ ∨
          e'.1 = PathNodeKey.mk (5 : ℤ)
            ⟨LineKind.Highway .Primary, 0, .None, Option.none⟩)).length =
      if (5 : ℤ) = 5 then 1 else 2 :=
  merge_ways_entry_count [c7Item] [LineKind.Highway .Footway]
    (⟨5, ⟨LineKind.Highway .Primary, 0, .None, Option.none⟩⟩,
      ⟨5, 5, (⟨1, .Way ⟨LineKind.Highway .Primary, 0, .None, Option.none⟩⟩,
        [⟨0, 0⟩, ⟨1, 1⟩, ⟨0, 0⟩])⟩)
    (by rw [c7_map_eval]; exact List.mem_singleton.mpr rfl)

/-- `HashMap::entry(k).or_insert(v)`: insert only when the key is absent. -/
def or_insert {κ ν : Type} [DecidableEq κ] (m : List (κ × ν)) (k : κ) (v : ν) :
    List (κ × ν) :=
  match alookup m k with
  | some _ => m
  | none => m ++ [(k, v)]

theorem alookup_append {κ ν : Type} [DecidableEq κ] (l₁ l₂ : List (κ × ν)) (k : κ) :
    alookup (l₁ ++ l₂) k =
      match alookup l₁ k with
      | some v => some v
      | none => alookup l₂ k := by
  induction l₁ with
  | nil => rfl
  | cons e rest ih =>
      rw [List.cons_append, alookup, alookup]
      by_cases he : e.1 = k
      · rw [if_pos he, if_pos he]
      · rw [if_neg he, if_neg he, ih]

theorem alookup_or_insert_self {κ ν : Type} [DecidableEq κ] (m : List (κ × ν))
    (k : κ) (v : ν) : (alookup (or_insert m k v) k).isSome := by
  rw [or_insert]
  cases h : alookup m k with
  | some w => rw [h]; rfl
  | none =>
      rw [alookup_append, h, alookup]
      rw [if_pos rfl]
      rfl

theorem alookup_or_insert_mono {κ ν : Type} [DecidableEq κ] {m : List (κ × ν)}
    {k' : κ} (h : (alookup m k').isSome) (k : κ) (v : ν) :
    (alookup (or_insert m k v) k').isSome := by
  rw [or_insert]
  cases hk : alookup m k with
  | some w => exact h
  | none =>
      rw [alookup_append]
      cases h' : alookup m k' with
      | some w => rfl
      | none => rw [h'] at h; cases h

/-- `OsmRoadGraph::highway_weight` from `routing/mod.rs`. -/
def highway_weight : HighwayKind → ℚ
  | .Motorway | .MotorwayLink | .Primary | .PrimaryLink => 1 / 2
  | _ => 1

/-- `OsmRoadGraph` from `routing/mod.rs`: the directed edge map (a `DiGraphMap`
keyed by ordered node-id pair, carrying the edge weight) and the node-id to
coordinate map.  `f64` weights become ℚ. -/
structure OsmRoadGraph where
  node_graph : List ((ℤ × ℤ) × ℚ)
  node_map : List (ℤ × Coord)

/-- `OsmRoadGraph::add_edge`.  The Euclidean distance is irrational in
general, so it is abstracted as the parameter `dist`; no claim depends on
edge weights.  `DiGraphMap::add_edge` replaces the weight of an existing
edge, which `ainsert` mirrors; `entry(..).or_insert(..)` keeps an existing
coordinate. -/
def OsmRoadGraph.add_edge (dist : Coord → Coord → ℚ) (g : OsmRoadGraph)
    (a b : ℤ × Coord) (road_kind : HighwayKind) : OsmRoadGraph :=
  { node_graph := ainsert g.node_graph (a.1, b.1) (dist a.2 b.2 * highway_weight road_kind),
    node_map := or_insert (or_insert g.node_map a.1 a.2) b.1 b.2 }

/-- `OsmRoadGraph::add_bi_edge`. -/
def OsmRoadGraph.add_bi_edge (dist : Coord → Coord → ℚ) (g : OsmRoadGraph)
    (a b : ℤ × Coord) (road_kind : HighwayKind) : OsmRoadGraph :=
  { node_graph := ainsert (ainsert g.node_graph (a.1, b.1)
        (dist a.2 b.2 * highway_weight road_kind)) (b.1, a.1)
        (dist a.2 b.2 * highway_weight road_kind),
    node_map := or_insert (or_insert g.node_map a.1 a.2) b.1 b.2 }

/-- A call to one of the two graph-building methods. -/
inductive RoutingOp where
  | add_edge (a b : ℤ × Coord) (road_kind : HighwayKind)
  | add_bi_edge (a b : ℤ × Coord) (road_kind : HighwayKind)

def applyRoutingOp (dist : Coord → Coord → ℚ) (g : OsmRoadGraph) :
    RoutingOp → OsmRoadGraph
  | .add_edge a b road_kind => g.add_edge dist a b road_kind
  | .add_bi_edge a b road_kind => g.add_bi_edge dist a b road_kind

/-- A graph built from the default (empty) state by a sequence of calls. -/
def buildGraph (dist : Coord → Coord → ℚ) (ops : List RoutingOp) : OsmRoadGraph :=
  ops.foldl (applyRoutingOp dist) ⟨[], []⟩

/-- Successors of a node in the directed edge list. -/
def succs (edges : List ((ℤ × ℤ) × ℚ)) (n : ℤ) : List ℤ :=
  (edges.filter fun e => decide (e.1.1 = n)).map fun e => e.1.2

/-- Nodes reachable from `a` in at most `k` steps. -/
def reachList (edges : List ((ℤ × ℤ) × ℚ)) (a : ℤ) : ℕ → List ℤ
  | 0 => [a]
  | k + 1 => (reachList edges a k ++ (reachList edges a k).bind (succs edges)).dedup

/-- A node path from `a` to `b` of length at most `k`, if `b` has been
reached within `k` expansion rounds; models the path found by `petgraph`
`astar` (which returns some path exactly when the goal is reachable). -/
def pathTo (edges : List ((ℤ × ℤ) × ℚ)) (a : ℤ) : ℕ → ℤ → Option (List ℤ)
  | 0, b => if b = a then some [a] else none
  | k + 1, b =>
      match pathTo edges a k b with
      | some p => some p
      | none =>
          match (reachList edges a k).find? fun n => decide (b ∈ succs edges n) with
          | some n => (pathTo edges a k n).map fun p => p ++ [b]
          | none => none

/-- The model of `petgraph::algo::astar` on the edge list: enough rounds to
saturate reachability. -/
def astarPath (edges : List ((ℤ × ℤ) × ℚ)) (a b : ℤ) : Option (List ℤ) :=
  pathTo edges a (edges.length + 1) b

theorem succs_mem {edges : List ((ℤ × ℤ) × ℚ)} {n x : ℤ} (h : x ∈ succs edges n) :
    ∃ w, ((n, x), w) ∈ edges := by
  rw [succs] at h
  rcases List.mem_map.mp h with ⟨e, he, hx⟩
  rcases List.mem_filter.mp he with ⟨he', hn⟩
  simp only [decide_eq_true_eq] at hn
  refine ⟨e.2, ?_⟩
  have : ((n, x), e.2) = e := by
    cases e with
    | mk p w => cases p with
      | mk u v =>
          simp only at hn hx
          rw [hn, hx]
  rw [this]
  exact he'

theorem succs_of_edge {edges : List ((ℤ × ℤ) × ℚ)} {n x : ℤ} {w : ℚ}
    (h : ((n, x), w) ∈ edges) : x ∈ succs edges n := by
  rw [succs]
  exact List.mem_map.mpr ⟨((n, x), w), List.mem_filter.mpr ⟨h, by simp⟩, rfl⟩

theorem succs_subset_targets {edges : List ((ℤ × ℤ) × ℚ)} {n x : ℤ}
    (h : x ∈ succs edges n) : x ∈ edges.map fun e => e.1.2 := by
  rcases succs_mem h with ⟨w, hw⟩
  exact List.mem_map.mpr ⟨((n, x), w), hw, rfl⟩

theorem reachList_nodup (edges : List ((ℤ × ℤ) × ℚ)) (a : ℤ) :
    ∀ k, (reachList edges a k).Nodup
  | 0 => List.nodup_singleton a
  | k + 1 => by rw [reachList]; exact List.nodup_dedup _

theorem reachList_subset_succ (edges : List ((ℤ × ℤ) × ℚ)) (a : ℤ) (k : ℕ) :
    reachList edges a k ⊆ reachList edges a (k + 1) := by
  intro x hx
  rw [reachList, List.mem_dedup]
  exact List.mem_append_left _ hx

theorem reachList_mono (edges : List ((ℤ × ℤ) × ℚ)) (a : ℤ) {i j : ℕ} (h : i ≤ j) :
    reachList edges a i ⊆ reachList edges a j := by
  induction j with
  | zero => rw [Nat.le_zero.mp h]; exact fun x hx => hx
  | succ j ih =>
      rcases Nat.lt_or_ge i (j + 1) with hlt | hge
      · exact fun x hx => reachList_subset_succ edges a j (ih (by omega) hx)
      · rw [Nat.le_antisymm h hge]; exact fun x hx => hx

theorem reachList_step {edges : List ((ℤ × ℤ) × ℚ)} {a n x : ℤ} {k : ℕ}
    (hn : n ∈ reachList edges a k) (hx : x ∈ succs edges n) :
    x ∈ reachList edges a (k + 1) := by
  rw [reachList, List.mem_dedup]
  exact List.mem_append_right _ (List.mem_bind.mpr ⟨n, hn, hx⟩)

theorem reachList_elems (edges : List ((ℤ × ℤ) × ℚ)) (a : ℤ) :
    ∀ k, ∀ x ∈ reachList edges a k, x = a ∨ x ∈ edges.map fun e => e.1.2 := by
  intro k
  induction k with
  | zero =>
      intro x hx
      exact .inl (List.mem_singleton.mp hx)
  | succ k ih =>
      intro x hx
      rw [reachList, List.mem_dedup] at hx
      rcases List.mem_append.mp hx with h | h
      · exact ih x h
      · rcases List.mem_bind.mp h with ⟨n, _, hxn⟩
        exact .inr (succs_subset_targets hxn)

theorem reachList_length_le (edges : List ((ℤ × ℤ) × ℚ)) (a : ℤ) (k : ℕ) :
    (reachList edges a k).length ≤ edges.length + 1 := by
  have hnd := reachList_nodup edges a k
  have hsub : (reachList edges a k).toFinset ⊆
      (a :: edges.map fun e => e.1.2).toFinset := by
    intro x hx
    rw [List.mem_toFinset] at hx ⊢
    rcases reachList_elems edges a k x hx with h | h
    · rw [h]; exact List.mem_cons_self _ _
    · exact List.mem_cons_of_mem _ h
  have h1 : (reachList edges a k).toFinset.card = (reachList edges a k).length :=
    List.toFinset_card_of_nodup hnd
  have h2 := Finset.card_le_card hsub
  have h3 := List.toFinset_card_le (a :: edges.map fun e => e.1.2)
  simp only [List.length_cons, List.length_map] at h3
  omega

theorem reachList_growth {edges : List ((ℤ × ℤ) × ℚ)} {a : ℤ} {k : ℕ}
    (h : ¬ reachList edges a (k + 1) ⊆ reachList edges a k) :
    (reachList edges a k).length + 1 ≤ (reachList edges a (k + 1)).length := by
  rw [List.subset_def] at h
  push_neg at h
  rcases h with ⟨x, hx1, hx2⟩
  have hss : (reachList edges a k).toFinset ⊂ (reachList edges a (k + 1)).toFinset := by
    constructor
    · intro y hy
      rw [List.mem_toFinset] at hy ⊢
      exact reachList_subset_succ edges a k hy
    · intro hcon
      exact hx2 (List.mem_toFinset.mp (hcon (List.mem_toFinset.mpr hx1)))
  have hcard := Finset.card_lt_card hss
  rw [List.toFinset_card_of_nodup (reachList_nodup edges a k),
    List.toFinset_card_of_nodup (reachList_nodup edges a (k + 1))] at hcard
  omega

theorem reachList_saturates (edges : List ((ℤ × ℤ) × ℚ)) (a : ℤ) :
    ∃ k ≤ edges.length + 1,
      reachList edges a (k + 1) ⊆ reachList edges a k := by
  by_contra hno
  push_neg at hno
  have hgrow : ∀ k ≤ edges.length + 1,
      k + 1 ≤ (reachList edges a k).length := by
    intro k
    induction k with
    | zero => intro _; rw [reachList]; exact le_refl 1
    | succ k ih =>
        intro hk
        have h1 := ih (by omega)
        have h2 := reachList_growth (hno k (by omega))
        omega
  have := hgrow (edges.length + 1) (le_refl _)
  have := reachList_length_le edges a (edges.length + 1)
  omega

theorem reachList_fix {edges : List ((ℤ × ℤ) × ℚ)} {a : ℤ} {k : ℕ}
    (hfix : reachList edges a (k + 1) ⊆ reachList edges a k) :
    ∀ j, reachList edges a (k + j) ⊆ reachList edges a k := by
  intro j
  induction j with
  | zero => exact fun x hx => hx
  | succ j ih =>
      intro x hx
      rw [show k + (j + 1) = (k + j) + 1 from rfl, reachList, List.mem_dedup] at hx
      rcases List.mem_append.mp hx with h | h
      · exact ih h
      · rcases List.mem_bind.mp h with ⟨n, hn, hxn⟩
        exact hfix (reachList_step (ih hn) hxn)

theorem reachList_all {edges : List ((ℤ × ℤ) × ℚ)} {a b : ℤ} {j : ℕ}
    (h : b ∈ reachList edges a j) : b ∈ reachList edges a (edges.length + 1) := by
  rcases reachList_saturates edges a with ⟨k, hk, hfix⟩
  rcases le_or_lt j (edges.length + 1) with hj | hj
  · exact reachList_mono edges a hj h
  · have hj' : j = k + (j - k) := by omega
    rw [hj'] at h
    exact reachList_mono edges a hk (reachList_fix hfix (j - k) h)

theorem reachList_complete {edges : List ((ℤ × ℤ) × ℚ)} {a b : ℤ}
    (h : Relation.ReflTransGen (fun x y => ∃ w, ((x, y), w) ∈ edges) a b) :
    b ∈ reachList edges a (edges.length + 1) := by
  have hex : ∃ j, b ∈ reachList edges a j := by
    induction h with
    | refl => exact ⟨0, List.mem_singleton.mpr rfl⟩
    | tail hab hbc ih =>
        rcases ih with ⟨j, hj⟩
        rcases hbc with ⟨w, hw⟩
        exact ⟨j + 1, reachList_step hj (succs_of_edge hw)⟩
  rcases hex with ⟨j, hj⟩
  exact reachList_all hj

theorem reachList_sound (edges : List ((ℤ × ℤ) × ℚ)) (a : ℤ) :
    ∀ k b, b ∈ reachList edges a k →
      Relation.ReflTransGen (fun x y => ∃ w, ((x, y), w) ∈ edges) a b := by
  intro k
  induction k with
  | zero =>
      intro b hb
      rw [List.mem_singleton.mp hb]
  | succ k ih =>
      intro b hb
      rw [reachList, List.mem_dedup] at hb
      rcases List.mem_append.mp hb with h | h
      · exact ih b h
      · rcases List.mem_bind.mp h with ⟨n, hn, hbn⟩
        rcases succs_mem hbn with ⟨w, hw⟩
        exact Relation.ReflTransGen.tail (ih n hn) ⟨w, hw⟩

theorem pathTo_self (edges : List ((ℤ × ℤ) × ℚ)) (a : ℤ) :
    ∀ k, pathTo edges a k a = some [a] := by
  intro k
  induction k with
  | zero => rw [pathTo, if_pos rfl]
  | succ k ih => rw [pathTo, ih]

theorem pathTo_isSome {edges : List ((ℤ × ℤ) × ℚ)} {a : ℤ} :
    ∀ {k b}, b ∈ reachList edges a k → (pathTo edges a k b).isSome := by
  intro k
  induction k with
  | zero =>
      intro b hb
      rw [List.mem_singleton.mp hb, pathTo_self]
      rfl
  | succ k ih =>
      intro b hb
      rw [pathTo]
      cases hp : pathTo edges a k b with
      | some p => rfl
      | none =>
          rw [reachList, List.mem_dedup] at hb
          rcases List.mem_append.mp hb with h | h
          · have := ih h
            rw [hp] at this
            cases this
          · rcases List.mem_bind.mp h with ⟨n, hn, hbn⟩
            show ((match (reachList edges a k).find? fun n => decide (b ∈ succs edges n) with
              | some n => Option.map (fun p => p ++ [b]) (pathTo edges a k n)
              | none => none) : Option (List ℤ)).isSome = true
            cases hf : (reachList edges a k).find? fun n => decide (b ∈ succs edges n) with
            | none =>
                have := List.find?_eq_none.mp hf n hn
                simp only [decide_eq_true_eq] at this
                exact absurd hbn this
            | some n' =>
                have hn' : n' ∈ reachList edges a k := List.mem_of_find?_eq_some hf
                have hs := ih hn'
                show (Option.map (fun p => p ++ [b]) (pathTo edges a k n')).isSome = true
                cases hq : pathTo edges a k n' with
                | none => rw [hq] at hs; cases hs
                | some q => rfl

theorem pathTo_sound {edges : List ((ℤ × ℤ) × ℚ)} {a : ℤ} :
    ∀ {k b p}, pathTo edges a k b = some p →
      Relation.ReflTransGen (fun x y => ∃ w, ((x, y), w) ∈ edges) a b := by
  intro k
  induction k with
  | zero =>
      intro b p h
      rw [pathTo] at h
      by_cases hb : b = a
      · rw [hb]
      · rw [if_neg hb] at h
        cases h
  | succ k ih =>
      intro b p h
      rw [pathTo] at h
      cases hp : pathTo edges a k b with
      | some q => exact ih hp
      | none =>
          rw [hp] at h
          replace h : (match (reachList edges a k).find? fun n =>
              decide (b ∈ succs edges n) with
            | some n => Option.map (fun p => p ++ [b]) (pathTo edges a k n)
            | none => (none : Option (List ℤ))) = some p := h
          cases hf : (reachList edges a k).find? fun n => decide (b ∈ succs edges n) with
          | none => rw [hf] at h; cases h
          | some n =>
              rw [hf] at h
              replace h : Option.map (fun p => p ++ [b]) (pathTo edges a k n) = some p := h
              have hprop := List.find?_some hf
              simp only [decide_eq_true_eq] at hprop
              rcases Option.map_eq_some'.mp h with ⟨q, hq, hpq⟩
              rcases succs_mem hprop with ⟨w, hw⟩
              exact Relation.ReflTransGen.tail (ih hq) ⟨w, hw⟩

theorem pathTo_mem {edges : List ((ℤ × ℤ) × ℚ)} {a : ℤ} :
    ∀ {k b p}, pathTo edges a k b = some p →
      ∀ x ∈ p, x = a ∨ x ∈ edges.map fun e => e.1.2 := by
  intro k
  induction k with
  | zero =>
      intro b p h x hx
      rw [pathTo] at h
      by_cases hb : b = a
      · rw [if_pos hb] at h
        cases Option.some.inj h
        exact .inl (List.mem_singleton.mp hx)
      · rw [if_neg hb] at h
        cases h
  | succ k ih =>
      intro b p h x hx
      rw [pathTo] at h
      cases hp : pathTo edges a k b with
      | some q =>
          rw [hp] at h
          replace h : some q = some p := h
          cases Option.some.inj h
          exact ih hp x hx
      | none =>
          rw [hp] at h
          replace h : (match (reachList edges a k).find? fun n =>
              decide (b ∈ succs edges n) with
            | some n => Option.map (fun p => p ++ [b]) (pathTo edges a k n)
            | none => (none : Option (List ℤ))) = some p := h
          cases hf : (reachList edges a k).find? fun n => decide (b ∈ succs edges n) with
          | none => rw [hf] at h; cases h
          | some n =>
              rw [hf] at h
              replace h : Option.map (fun p => p ++ [b]) (pathTo edges a k n) = some p := h
              have hprop := List.find?_some hf
              simp only [decide_eq_true_eq] at hprop
              rcases Option.map_eq_some'.mp h with ⟨q, hq, hpq⟩
              rw [← hpq] at hx
              rcases List.mem_append.mp hx with hxq | hxb
              · exact ih hq x hxq
              · rw [List.mem_singleton.mp hxb]
                exact .inr (succs_subset_targets hprop)

theorem astarPath_self (edges : List ((ℤ × ℤ) × ℚ)) (a : ℤ) :
    astarPath edges a a = some [a] :=
  pathTo_self edges a _

theorem astarPath_isSome_iff (edges : List ((ℤ × ℤ) × ℚ)) (a b : ℤ) :
    (astarPath edges a b).isSome ↔
      Relation.ReflTransGen (fun x y => ∃ w, ((x, y), w) ∈ edges) a b := by
  constructor
  · intro h
    cases hp : astarPath edges a b with
    | none => rw [hp] at h; cases h
    | some p => exact pathTo_sound hp
  · intro h
    exact pathTo_isSome (reachList_complete h)

theorem astarPath_mem {edges : List ((ℤ × ℤ) × ℚ)} {a b : ℤ} {p : List ℤ}
    (h : astarPath edges a b = some p) :
    ∀ x ∈ p, x = a ∨ x ∈ edges.map fun e => e.1.2 :=
  pathTo_mem h

/-- The coordinate translation at the end of `route`:
`path.into_iter().map(|node| *self.node_map.get(&node).expect("missing node"))`,
with the `expect` panic modelled as `Except.error`. -/
def coordsOfPath (nm : List (ℤ × Coord)) : List ℤ → Except Unit (List Coord)
  | [] => .ok []
  | n :: rest =>
      match alookup nm n with
      | none => .error ()
      | some c =>
          match coordsOfPath nm rest with
          | .error e => .error e
          | .ok cs => .ok (c :: cs)

/-- `OsmRoadGraph::route` from `routing/mod.rs`.  `node_map.get(&to_id)?`
returns `None` early (`.ok none`); `petgraph::algo::astar` evaluates the
heuristic on the start node before the goal test, so a missing `from_id`
coordinate hits `expect("missing node")` — a panic, modelled as
`Except.error` (heuristic calls on other visited nodes concern nodes of the
edge graph only, which the coverage hypotheses below always provide);
`astar(..)?` returning no path yields `.ok none`; otherwise the node path is
translated through the node map. -/
def OsmRoadGraph.route (g : OsmRoadGraph) (from_id to_id : ℤ) :
    Except Unit (Option (List Coord)) :=
  match alookup g.node_map to_id with
  | none => .ok none
  | some _ =>
      match alookup g.node_map from_id with
      | none => .error ()
      | some _ =>
          match astarPath g.node_graph from_id to_id with
          | none => .ok none
          | some path =>
              match coordsOfPath g.node_map path with
              | .error e => .error e
              | .ok cs => .ok (some cs)

/-- Every node of the directed edge graph has a coordinate. -/
def NodeCovered (g : OsmRoadGraph) : Prop :=
  ∀ e ∈ g.node_graph, (alookup g.node_map e.1.1).isSome ∧
    (alookup g.node_map e.1.2).isSome

/-- Reachability in the directed edge graph (every node reaches itself). -/
def Reachable (g : OsmRoadGraph) (a b : ℤ) : Prop :=
  Relation.ReflTransGen (fun x y => ∃ w, ((x, y), w) ∈ g.node_graph) a b

theorem coordsOfPath_single {nm : List (ℤ × Coord)} {n : ℤ} {c : Coord}
    (h : alookup nm n = some c) : coordsOfPath nm [n] = .ok [c] := by
  rw [coordsOfPath, h]
  rfl

theorem coordsOfPath_ok {nm : List (ℤ × Coord)} :
    ∀ {p : List ℤ}, (∀ n ∈ p, (alookup nm n).isSome) →
      ∃ cs, coordsOfPath nm p = .ok cs := by
  intro p
  induction p with
  | nil => exact fun _ => ⟨[], rfl⟩
  | cons n rest ih =>
      intro h
      have hn := h n (List.mem_cons_self n rest)
      cases hc : alookup nm n with
      | none => rw [hc] at hn; cases hn
      | some c =>
          obtain ⟨cs, hcs⟩ := ih fun x hx => h x (List.mem_cons_of_mem n hx)
          refine ⟨c :: cs, ?_⟩
          rw [coordsOfPath, hc, hcs]

theorem route_to_none {g : OsmRoadGraph} {fr tid : ℤ}
    (h : alookup g.node_map tid = none) : g.route fr tid = .ok none := by
  simp only [OsmRoadGraph.route]
  rw [h]

theorem route_from_none {g : OsmRoadGraph} {fr tid : ℤ} {ct : Coord}
    (hto : alookup g.node_map tid = some ct) (hfr : alookup g.node_map fr = none) :
    g.route fr tid = .error () := by
  simp only [OsmRoadGraph.route]
  rw [hto, hfr]

theorem route_astar_none {g : OsmRoadGraph} {fr tid : ℤ} {ct cf : Coord}
    (hto : alookup g.node_map tid = some ct) (hfr : alookup g.node_map fr = some cf)
    (hpath : astarPath g.node_graph fr tid = none) : g.route fr tid = .ok none := by
  simp only [OsmRoadGraph.route]
  rw [hto, hfr, hpath]

theorem route_full {g : OsmRoadGraph} {fr tid : ℤ} {ct cf : Coord} {p : List ℤ}
    {cs : List Coord} (hto : alookup g.node_map tid = some ct)
    (hfr : alookup g.node_map fr = some cf)
    (hpath : astarPath g.node_graph fr tid = some p)
    (hcs : coordsOfPath g.node_map p = .ok cs) : g.route fr tid = .ok (some cs) := by
  simp only [OsmRoadGraph.route]
  rw [hto, hfr, hpath]
  show (match coordsOfPath g.node_map p with
    | .error e => .error e
    | .ok cs => Except.ok (some cs)) = Except.ok (some cs)
  rw [hcs]

theorem route_self {g : OsmRoadGraph} {a : ℤ} {ca : Coord}
    (h : alookup g.node_map a = some ca) : g.route a a = .ok (some [ca]) :=
  route_full h h (astarPath_self g.node_graph a) (coordsOfPath_single h)

theorem route_master (g : OsmRoadGraph) (hcov : NodeCovered g) (fr tid : ℤ)
    (cf : Coord) (hf : alookup g.node_map fr = some cf) :
    (g.route fr tid = .ok none ↔
      alookup g.node_map tid = none ∨ ¬ Reachable g fr tid) ∧
    g.route fr tid ≠ .error () := by
  cases hto : alookup g.node_map tid with
  | none =>
      rw [route_to_none hto]
      exact ⟨⟨fun _ => .inl rfl, fun _ => rfl⟩, fun h => by cases h⟩
  | some ct =>
      cases hpath : astarPath g.node_graph fr tid with
      | none =>
          have hnr : ¬ Reachable g fr tid := by
            intro hr
            have := (astarPath_isSome_iff g.node_graph fr tid).mpr hr
            rw [hpath] at this
            cases this
          rw [route_astar_none hto hf hpath]
          refine ⟨⟨fun _ => .inr hnr, fun _ => rfl⟩, fun h => by cases h⟩
      | some p =>
          have hr : Reachable g fr tid := by
            refine (astarPath_isSome_iff g.node_graph fr tid).mp ?_
            rw [hpath]
            rfl
          have hcoords : ∀ n ∈ p, (alookup g.node_map n).isSome := by
            intro n hn
            rcases astarPath_mem hpath n hn with h1 | h2
            · rw [h1, hf]; rfl
            · rcases List.mem_map.mp h2 with ⟨e, he, hne⟩
              rw [← hne]
              exact (hcov e he).2
          obtain ⟨cs, hcs⟩ := coordsOfPath_ok hcoords
          rw [route_full hto hf hpath hcs]
          constructor
          · constructor
            · intro habs
              simp at habs
            · intro hrhs
              rcases hrhs with h1 | h2
              · cases h1
              · exact absurd hr h2
          · intro h
            cases h

theorem nodeCovered_add_edge (dist : Coord → Coord → ℚ) {g : OsmRoadGraph}
    (a b : ℤ × Coord) (road_kind : HighwayKind) (h : NodeCovered g) :
    NodeCovered (g.add_edge dist a b road_kind) := by
  intro e he
  simp only [OsmRoadGraph.add_edge] at he ⊢
  rcases mem_ainsert he with he' | he'
  · rw [he']
    exact ⟨alookup_or_insert_mono (alookup_or_insert_self g.node_map a.1 a.2) _ _,
      alookup_or_insert_self _ b.1 b.2⟩
  · obtain ⟨h1, h2⟩ := h e he'
    exact ⟨alookup_or_insert_mono (alookup_or_insert_mono h1 a.1 a.2) b.1 b.2,
      alookup_or_insert_mono (alookup_or_insert_mono h2 a.1 a.2) b.1 b.2⟩

theorem nodeCovered_add_bi_edge (dist : Coord → Coord → ℚ) {g : OsmRoadGraph}
    (a b : ℤ × Coord) (road_kind : HighwayKind) (h : NodeCovered g) :
    NodeCovered (g.add_bi_edge dist a b road_kind) := by
  intro e he
  simp only [OsmRoadGraph.add_bi_edge] at he ⊢
  rcases mem_ainsert he with he' | he'
  · rw [he']
    exact ⟨alookup_or_insert_self _ b.1 b.2,
      alookup_or_insert_mono (alookup_or_insert_self g.node_map a.1 a.2) _ _⟩
  · rcases mem_ainsert he' with he'' | he''
    · rw [he'']
      exact ⟨alookup_or_insert_mono (alookup_or_insert_self g.node_map a.1 a.2) _ _,
        alookup_or_insert_self _ b.1 b.2⟩
    · obtain ⟨h1, h2⟩ := h e he''
      exact ⟨alookup_or_insert_mono (alookup_or_insert_mono h1 a.1 a.2) b.1 b.2,
        alookup_or_insert_mono (alookup_or_insert_mono h2 a.1 a.2) b.1 b.2⟩

theorem nodeCovered_build (dist : Coord → Coord → ℚ) (ops : List RoutingOp) :
    NodeCovered (buildGraph dist ops) := by
  rw [buildGraph]
  suffices hgen : ∀ g, NodeCovered g →
      NodeCovered (ops.foldl (applyRoutingOp dist) g) by
    exact hgen ⟨[], []⟩ fun e he => absurd he (List.not_mem_nil e)
  induction ops with
  | nil => exact fun g h => h
  | cons op rest ih =>
      intro g h
      rw [List.foldl_cons]
      apply ih
      cases op with
      | add_edge a b road_kind => exact nodeCovered_add_edge dist a b road_kind h
      | add_bi_edge a b road_kind => exact nodeCovered_add_bi_edge dist a b road_kind h

/-- C8: counterexample tid the claim as stated.  On a graph whose node map
holds only node 1, `route(2, 1)` does not return `None` (which the claim
demands, the `from` endpoint having no coordinate): the destination lookup
succeeds, and the A* heuristic then calls `expect("missing node")` on the
start node — a panic. -/
theorem route_none_iff_counterexample :
    ¬ ∀ (g : OsmRoadGraph) (fr tid : ℤ), ∃ r, g.route fr tid = .ok r ∧
        (r = Option.none ↔ ¬ Reachable g fr tid ∨
          alookup g.node_map fr = Option.none ∨
          alookup g.node_map tid = Option.none) := by
  intro h
  obtain ⟨r, hr, -⟩ := h ⟨[], [(1, ⟨0, 0⟩)]⟩ 2 1
  have : OsmRoadGraph.route ⟨[], [(1, ⟨0, 0⟩)]⟩ 2 1 = .error () := rfl
  rw [this] at hr
  cases hr

/-- **C8 (amended).**  On any road graph whose edge-graph nodes all carry
coordinates: `route(a, a)` returns the one-point route `[coord(a)]` for every
node `a` with a coordinate; and whenever `from_id` has a coordinate,
`route(from_id, to_id)` returns `None` iff `to_id` has no coordinate or
`to_id` is unreachable from `from_id` in the directed edge graph.  (If
`from_id` has no coordinate but `to_id` does, `route` panics instead of
returning `None`.) -/
theorem route_spec (g : OsmRoadGraph) (hcov : NodeCovered g) :
    (∀ a ca, alookup g.node_map a = some ca → g.route a a = .ok (some [ca])) ∧
    ∀ fr tid cf, alookup g.node_map fr = some cf →
      (g.route fr tid = .ok none ↔
        alookup g.node_map tid = none ∨ ¬ Reachable g fr tid) :=
  ⟨fun _ _ h => route_self h,
    fun fr tid cf hf => (route_master g hcov fr tid cf hf).1⟩

/-- Witness for C8 (amended): on the one-node edge-free graph, the coverage
hypothesis holds and `route(1, 1)` is the single coordinate. -/
theorem route_spec_witness :
    OsmRoadGraph.route ⟨[], [(1, ⟨0, 0⟩)]⟩ 1 1 = .ok (some [⟨0, 0⟩]) :=
  (route_spec ⟨[], [(1, ⟨0, 0⟩)]⟩ (fun e he => absurd he (List.not_mem_nil e))).1
    1 ⟨0, 0⟩ rfl

/-- C10: counterexample tid the claim's consequence as stated.  For a graph
built solely by the two add operations, the lookups inside `route` can still
fail: calling `route` with a `from_id` that was never added panics in the
heuristic (whenever `to_id` has a coordinate). -/
theorem build_graph_route_counterexample :
    ¬ ∀ (dist : Coord → Coord → ℚ) (ops : List RoutingOp) (fr tid : ℤ),
        (buildGraph dist ops).route fr tid ≠ .error () := by
  intro h
  exact h (fun _ _ => 1)
    [RoutingOp.add_edge (1, ⟨0, 0⟩) (2, ⟨1, 0⟩) HighwayKind.Primary] 3 1 rfl

/-- **C10 (amended).**  After any sequence of `add_edge` / `add_bi_edge`
calls on the default graph, every node of the directed edge graph has an
entry in the node-coordinate map; consequently the lookups inside `route`
all succeed — no panic — whenever the `from_id` argument itself has a
coordinate (in particular for every node of the built graph). -/
theorem build_graph_lookups (dist : Coord → Coord → ℚ) (ops : List RoutingOp) :
    NodeCovered (buildGraph dist ops) ∧
    ∀ fr tid cf, alookup (buildGraph dist ops).node_map fr = some cf →
      (buildGraph dist ops).route fr tid ≠ .error () :=
  ⟨nodeCovered_build dist ops,
    fun fr tid cf hf =>
      (route_master (buildGraph dist ops) (nodeCovered_build dist ops) fr tid cf hf).2⟩

/-- Witness for C10 (amended): after one `add_edge`, routing from node 1 does
not panic. -/
theorem build_graph_lookups_witness :
    (buildGraph (fun _ _ => 1)
        [RoutingOp.add_edge (1, ⟨0, 0⟩) (2, ⟨1, 0⟩) HighwayKind.Primary]).route
      1 2 ≠ .error () :=
  (build_graph_lookups (fun _ _ => 1)
      [RoutingOp.add_edge (1, ⟨0, 0⟩) (2, ⟨1, 0⟩) HighwayKind.Primary]).2
    1 2 ⟨0, 0⟩ rfl

/-- `OsmBlobHeader` from `reader/mod.rs` (only the sizes; the model addresses
blobs by their index in the collected header list instead of by seek offset). -/
structure OsmBlobHeader where
  datasize : ℤ
  total_size : ℤ
deriving DecidableEq, Repr

/-- One `parse_blob_header` call during the forward pre-scan: a parsed header
(`Ok(Some(..))`) or an I/O error (`Err(_)`); end of the event list is EOF
(`Ok(None)`). -/
inductive HeaderEvent where
  | ok (header : OsmBlobHeader)
  | ioErr
deriving DecidableEq, Repr

/-- `OsmRelation` from `reader/mod.rs`: tags as an association list (the
`HashMap` iterated in list order), member ways as (way id, role id) pairs. -/
structure OsmRelation where
  id : ℤ
  tags : List (ℕ × ℕ)
  ways : List (ℤ × ℤ)
deriving DecidableEq, Repr

structure OsmWay where
  id : ℤ
deriving DecidableEq, Repr

structure OsmNode where
  id : ℤ
deriving DecidableEq, Repr

/-- `OsmBlobData` from `reader/mod.rs` (fields the pre-scan inspects). -/
structure OsmBlobData where
  string_table : List String
  ways : List OsmWay
  nodes : List OsmNode
  relations : List OsmRelation
deriving DecidableEq, Repr

inductive OsmBlob where
  | Data (data : OsmBlobData)
  | Header
deriving DecidableEq, Repr

/-- `TagFilter` from `filter.rs`. -/
structure TagFilter where
  filter : List (ℕ × Option ℕ)
deriving DecidableEq, Repr

/-- The last index at which `s` occurs in the string table: the value the
`HashMap<&str, u32>` built by `TagFilter::new` holds for `s` (collecting
duplicate keys keeps the last insertion). -/
def lastIdxAux : List String → String → ℕ → Option ℕ
  | [], _, _ => none
  | x :: rest, s, i =>
      match lastIdxAux rest s (i + 1) with
      | some j => some j
      | none => if x = s then some i else none

def lastIdx (st : List String) (s : String) : Option ℕ :=
  lastIdxAux st s 0

/-- `TagFilter::new`: an entry of `filter_tags` survives iff its key string
(and value string, when given) occurs in the string table; strings are
replaced by their (last) table indices. -/
def TagFilter.new (string_table : List String)
    (filter_tags : List (String × Option String)) : TagFilter :=
  ⟨filter_tags.filterMap fun kv =>
    match lastIdx string_table kv.1 with
    | none => none
    | some ki =>
        match kv.2 with
        | none => some (ki, none)
        | some vs =>
            match lastIdx string_table vs with
            | none => none
            | some vi => some (ki, some vi)⟩

/-- Whether one `(k, v)` tag matches some filter entry: equal key, and equal
value when the entry constrains the value (the `continue` skips only that
entry). -/
def tagFilterStep (filter : List (ℕ × Option ℕ)) (kv : ℕ × ℕ) : Bool :=
  filter.any fun f =>
    decide (f.1 = kv.1) &&
      match f.2 with
      | none => true
      | some fv => decide (kv.2 = fv)

/-- `TagFilter::filter`: the first tag matched by the filter (the source
returns the corresponding strings; only `Some`/`None` is consumed by the
pre-scan). -/
def TagFilter.filterTags (tf : TagFilter) (tags : List (ℕ × ℕ)) : Option (ℕ × ℕ) :=
  tags.find? (tagFilterStep tf.filter)

/-- The way ids inserted for one relation-only blob: all member way ids of
relations accepted by the tag filter. -/
def collectRelWays (data : OsmBlobData)
    (relation_tags : List (String × Option String)) : List ℤ :=
  (data.relations.filter fun rel =>
      (TagFilter.filterTags (TagFilter.new data.string_table relation_tags)
        rel.tags).isSome).bind
    fun rel => rel.ways.map fun w => w.1

/-- The backward scan of `extract_ways_id_from_relations` over the collected
block indices (`i + 1` blocks left means block `i` is visited next):
`parse_blob().unwrap().ok().unwrap()` panics (`.error ()`) on an I/O error
(`blobs i = none`) or a decode error (`blobs i = some none`); a blob with
nodes or ways, or a non-data blob, stops the scan; a relation-only blob
contributes its filtered way ids and the scan moves to the previous block.
The `FxHashSet` is modelled by the list of inserted ids. -/
def backScanGo (blobs : ℕ → Option (Option OsmBlob))
    (relation_tags : List (String × Option String)) :
    ℕ → List ℤ → Except Unit (List ℤ)
  | 0, acc => .ok acc
  | i + 1, acc =>
      match blobs i with
      | none => .error ()
      | some none => .error ()
      | some (some .Header) => .ok acc
      | some (some (.Data data)) =>
          if data.nodes ≠ [] ∨ data.ways ≠ [] then .ok acc
          else backScanGo blobs relation_tags i (acc ++ collectRelWays data relation_tags)

/-- The forward pre-scan: headers are collected until EOF (list end) or the
first I/O error, which `break`s the loop with the headers collected so far. -/
def scanHeaders : List HeaderEvent → ℕ
  | [] => 0
  | .ioErr :: _ => 0
  | .ok _ :: rest => scanHeaders rest + 1

/-- `OsmReader::extract_ways_id_from_relations`: the forward header scan
followed by the backward relation scan. -/
def extract_ways_id_from_relations (events : List HeaderEvent)
    (blobs : ℕ → Option (Option OsmBlob))
    (relation_tags : List (String × Option String)) : Except Unit (List ℤ) :=
  backScanGo blobs relation_tags (scanHeaders events) []

theorem scanHeaders_map_ok (hs : List OsmBlobHeader) :
    scanHeaders (hs.map HeaderEvent.ok) = hs.length := by
  induction hs with
  | nil => rfl
  | cons h rest ih => rw [List.map_cons, scanHeaders, ih, List.length_cons]

theorem scanHeaders_map_ok_append (hs : List OsmBlobHeader) (rest : List HeaderEvent) :
    scanHeaders (hs.map HeaderEvent.ok ++ HeaderEvent.ioErr :: rest) = hs.length := by
  induction hs with
  | nil => rfl
  | cons h hs ih =>
      rw [List.map_cons, List.cons_append, scanHeaders, ih, List.length_cons]

/-- A relation-only blob: one relation tagged `route` holding way 7. -/
def c9Data : OsmBlobData :=
  ⟨["route"], [], [], [⟨1, [(0, 0)], [(7, 0)]⟩]⟩

/-- Counterexample to C9 as stated: an I/O error in the forward header scan
breaks that loop, but the backward scan still runs over the headers already
collected — here one relation blob — so the function returns way id 7, not
an empty set. -/
theorem extract_io_error_empty_counterexample :
    ¬ ∀ (events : List HeaderEvent) (blobs : ℕ → Option (Option OsmBlob))
        (relation_tags : List (String × Option String)),
        HeaderEvent.ioErr ∈ events →
        extract_ways_id_from_relations events blobs relation_tags = .ok [] := by
  intro h
  have hmem : HeaderEvent.ioErr ∈ [HeaderEvent.ok ⟨0, 0⟩, HeaderEvent.ioErr] := by
    exact List.mem_cons_of_mem _ (List.mem_singleton.mpr rfl)
  have := h [HeaderEvent.ok ⟨0, 0⟩, HeaderEvent.ioErr]
    (fun _ => some (some (.Data c9Data))) [("route", none)] hmem
  have heval : extract_ways_id_from_relations [HeaderEvent.ok ⟨0, 0⟩, HeaderEvent.ioErr]
      (fun _ => some (some (.Data c9Data))) [("route", none)] = .ok [7] := rfl
  rw [heval] at this
  simp at this

/-- **C9 (amended).**  An I/O error during the forward header pre-scan is
non-fatal for that loop: it merely truncates the list of collected block
headers, so the function behaves exactly as if the input had ended at the
error — the backward scan still runs over the already-collected blocks and
the returned way-id set is in general not empty (and blob errors during the
backward scan panic). -/
theorem extract_io_error_truncates (hs : List OsmBlobHeader)
    (rest : List HeaderEvent) (blobs : ℕ → Option (Option OsmBlob))
    (relation_tags : List (String × Option String)) :
    extract_ways_id_from_relations
        (hs.map HeaderEvent.ok ++ HeaderEvent.ioErr :: rest) blobs relation_tags =
      extract_ways_id_from_relations (hs.map HeaderEvent.ok) blobs relation_tags := by
  rw [extract_ways_id_from_relations, extract_ways_id_from_relations,
    scanHeaders_map_ok, scanHeaders_map_ok_append]

end Shashlik
